import Mathlib

/-!
Verification of the QueryOptimization repository (heuristic + cost-driven
relational-algebra query optimizer).

The embedding follows the Python source closely:
  * `Val` models the dynamically-typed `val` payload of a tree node together
    with the condition classes `ConditionLeaf` / `ConditionOperator` from the
    (missing) `tree.nodes` module: a Python object stored in a node or inside
    a condition is one of: a condition leaf, a condition operator, a string,
    a list of strings, an integer, or `None`.
  * `QueryTree` models the `tree.query_tree.QueryTree` class: an operator tag
    (`type`), a payload (`val`), an ordered list of children (`childs`) and an
    optional alias.  The class itself is not under `src/`; its shape is
    modelled from the spec (section 3.2) and from every constructor call in
    the sources, all of which have the form `QueryTree(type, val, childs,
    parent)` with no back-pointer kept.
  * Costs are real numbers (Python floats are idealised as reals, since the
    ORDER-BY formula uses `math.log2`); selectivities are rationals.
-/

/-- `Modelled from the spec:` the payload type of tree nodes and condition
trees.  The missing `tree.nodes` module provides `ConditionLeaf` (a leaf
holding one comparison string) and `ConditionOperator` (an operator string
with two sub-expressions); spec section 3.1.  The remaining constructors
model the other Python values stored in `val`: strings (TABLE names),
lists of strings (PROJECT attribute lists), integers (LIMIT) and `None`. -/
inductive Val where
  | leaf (condition : String)
  | condOp (operator : String) (left right : Val)
  | str (s : String)
  | strList (l : List String)
  | vint (n : Int)
  | vnone
  deriving DecidableEq, Repr

/-- `Modelled from the spec:` the algebra-tree node class
`tree.query_tree.QueryTree` (spec section 3.2): operator tag, payload,
ordered child list, optional alias on TABLE nodes.  Every constructor call in
the sources is `QueryTree(type, val, childs, parent)`; the parent pointer is
never read by the optimizer, so it is not modelled.  The alias field is read
by `rules._get_attributes_from_tree` through `hasattr(tree, 'alias')`. -/
inductive QueryTree where
  | node (type : String) (val : Val) (childs : List QueryTree)
      (al : Option String)
  deriving Repr

namespace QueryTree

def type : QueryTree → String
  | .node t _ _ _ => t

def val : QueryTree → Val
  | .node _ v _ _ => v

def childs : QueryTree → List QueryTree
  | .node _ _ cs _ => cs

def al : QueryTree → Option String
  | .node _ _ _ a => a

mutual
/-- Structural size used as a termination measure. -/
def tsize : QueryTree → Nat
  | .node _ _ cs _ => 1 + tsizeList cs

def tsizeList : List QueryTree → Nat
  | [] => 0
  | c :: cs => tsize c + tsizeList cs
end

theorem tsize_pos (t : QueryTree) : 0 < tsize t := by
  cases t with
  | node ty v cs a => simp only [tsize]; omega

theorem tsize_le_tsizeList {c : QueryTree} {cs : List QueryTree}
    (h : c ∈ cs) : tsize c ≤ tsizeList cs := by
  induction cs with
  | nil => cases h
  | cons x xs ih =>
    rcases List.mem_cons.mp h with rfl | hx
    · simp only [tsizeList]; all_goals omega
    · have := ih hx
      simp only [tsizeList]; all_goals omega

theorem tsize_lt_of_mem {c : QueryTree} {cs : List QueryTree}
    (h : c ∈ cs) : ∀ ty v a, tsize c < tsize (QueryTree.node ty v cs a) := by
  intro ty v a
  have := tsize_le_tsizeList h
  simp only [tsize]; all_goals omega

/-- A general induction principle for `QueryTree` (the auto-generated
recursor goes through `List`, which is inconvenient to use directly). -/
theorem myInduction (P : QueryTree → Prop)
    (h : ∀ ty v cs a, (∀ c ∈ cs, P c) → P (QueryTree.node ty v cs a)) :
    ∀ t, P t := by
  intro t
  have H : ∀ n (t : QueryTree), tsize t ≤ n → P t := by
    intro n
    induction n with
    | zero => intro t ht; have := tsize_pos t; omega
    | succ n ih =>
      intro t ht
      cases t with
      | node ty v cs a =>
        refine h ty v cs a ?_
        intro c hc
        refine ih c ?_
        have := tsize_lt_of_mem hc ty v a
        omega
  exact H (tsize t) t le_rfl

mutual
def beqQT : QueryTree → QueryTree → Bool
  | .node t1 v1 c1 a1, .node t2 v2 c2 a2 =>
    t1 == t2 && decide (v1 = v2) && beqQTList c1 c2 && a1 == a2

def beqQTList : List QueryTree → List QueryTree → Bool
  | [], [] => true
  | x :: xs, y :: ys => beqQT x y && beqQTList xs ys
  | _, _ => false
end

mutual
theorem beqQT_iff : ∀ a b : QueryTree, beqQT a b = true ↔ a = b
  | .node t1 v1 c1 a1, .node t2 v2 c2 a2 => by
    simp only [beqQT, Bool.and_eq_true, beq_iff_eq, decide_eq_true_eq,
      QueryTree.node.injEq]
    constructor
    · rintro ⟨⟨⟨ht, hv⟩, hc⟩, ha⟩
      exact ⟨ht, hv, (beqQTList_iff c1 c2).mp hc, ha⟩
    · rintro ⟨ht, hv, hc, ha⟩
      exact ⟨⟨⟨ht, hv⟩, (beqQTList_iff c1 c2).mpr hc⟩, ha⟩

theorem beqQTList_iff : ∀ a b : List QueryTree, beqQTList a b = true ↔ a = b
  | [], [] => by simp [beqQTList]
  | [], _ :: _ => by simp [beqQTList]
  | _ :: _, [] => by simp [beqQTList]
  | x :: xs, y :: ys => by
    simp only [beqQTList, Bool.and_eq_true, List.cons.injEq]
    constructor
    · rintro ⟨hx, hxs⟩
      exact ⟨(beqQT_iff x y).mp hx, (beqQTList_iff xs ys).mp hxs⟩
    · rintro ⟨hx, hxs⟩
      exact ⟨(beqQT_iff x y).mpr hx, (beqQTList_iff xs ys).mpr hxs⟩
end

instance : DecidableEq QueryTree := fun a b =>
  decidable_of_iff (beqQT a b = true) (beqQT_iff a b)

end QueryTree

/-! ## String helpers (Python `in` on strings is substring containment) -/

def listHasPre : List Char → List Char → Bool
  | [], _ => true
  | _ :: _, [] => false
  | p :: ps, c :: cs => p == c && listHasPre ps cs

def listHasInfix (pat : List Char) : List Char → Bool
  | [] => listHasPre pat []
  | c :: rest => listHasPre pat (c :: rest) || listHasInfix pat rest

/-- Python `pat in s` for strings: substring containment. -/
def strHasSub (s pat : String) : Bool :=
  listHasInfix pat.data s.data

/-! Character-list implementations of the string operations the sources
use.  The built-in `String` versions are implemented over byte positions
and do not reduce inside the kernel, which the concrete evaluations below
need; these are the same functions over `List Char`. -/

def pyUpper (s : String) : String :=
  String.mk (s.data.map Char.toUpper)

def pyLower (s : String) : String :=
  String.mk (s.data.map Char.toLower)

/-- Python `c in s` for a single character. -/
def pyCharIn (s : String) (c : Char) : Bool :=
  s.data.contains c

def pyStartsWith (s pre : String) : Bool :=
  listHasPre pre.data s.data

def pyEndsWith (s suf : String) : Bool :=
  listHasPre suf.data.reverse s.data.reverse

def pyDrop (s : String) (n : Nat) : String :=
  String.mk (s.data.drop n)

/-- Python `str.strip()`. -/
def pyStrip (s : String) : String :=
  String.mk
    (((s.data.dropWhile Char.isWhitespace).reverse.dropWhile
      Char.isWhitespace).reverse)

def pySplitGo (c : Char) (current : List Char) : List Char → List String
  | [] => [String.mk current.reverse]
  | x :: xs =>
    if x = c then String.mk current.reverse :: pySplitGo c [] xs
    else pySplitGo c (x :: current) xs

/-- Python `s.split(c)` for a one-character separator (empty pieces are
kept). -/
def pySplit (c : Char) (s : String) : List String :=
  pySplitGo c [] s.data

def pyReplaceF (pat rep : List Char) : Nat → List Char → List Char
  | 0, l => l
  | _ + 1, [] => []
  | n + 1, c :: rest =>
    if listHasPre pat (c :: rest) then
      rep ++ pyReplaceF pat rep n ((c :: rest).drop pat.length)
    else c :: pyReplaceF pat rep n rest

/-- Python `s.replace(pat, rep)` for a non-empty pattern (the only use is
`.replace('.*', '')`). -/
def pyReplace (s pat rep : String) : String :=
  String.mk (pyReplaceF pat.data rep.data (s.data.length + 1) s.data)

/-- Python `sep.join(pieces)`. -/
def pyIntercalate (sep : String) : List String → String
  | [] => ""
  | x :: xs => xs.foldl (fun acc y => acc ++ sep ++ y) x

/-! ## Conditions: extraction, selectivity (`cost_calculator.py`, `rules.py`) -/

/-- `OptimizationRules._extract_and_conditions`: flatten the AND-spine of a
condition; a `ConditionLeaf`, an operator other than `"AND"`, or any
non-condition object is returned as a single atom. -/
def extract_and_conditions : Val → List Val
  | .leaf c => [.leaf c]
  | .condOp op l r =>
    if op = "AND" then extract_and_conditions l ++ extract_and_conditions r
    else [.condOp op l r]
  | v => [v]

/-- Number of AND nodes on the spine of a condition value (0 for anything
whose root is not an AND `ConditionOperator`). -/
def spineV : Val → Nat
  | .condOp op l r => if op = "AND" then 1 + spineV l + spineV r else 0
  | _ => 0

theorem length_extract (v : Val) :
    (extract_and_conditions v).length = spineV v + 1 := by
  induction v with
  | leaf c => simp [extract_and_conditions, spineV]
  | condOp op l r ihl ihr =>
    by_cases h : op = "AND"
    · simp [extract_and_conditions, spineV, h, ihl, ihr]; omega
    · simp [extract_and_conditions, spineV, h]
  | str s => simp [extract_and_conditions, spineV]
  | strList l => simp [extract_and_conditions, spineV]
  | vint n => simp [extract_and_conditions, spineV]
  | vnone => simp [extract_and_conditions, spineV]

theorem spineV_of_mem_extract {a v : Val}
    (h : a ∈ extract_and_conditions v) : spineV a = 0 := by
  induction v with
  | leaf c => simp [extract_and_conditions] at h; subst h; rfl
  | condOp op l r ihl ihr =>
    by_cases hop : op = "AND"
    · simp [extract_and_conditions, hop] at h
      rcases h with h | h
      · exact ihl h
      · exact ihr h
    · simp [extract_and_conditions, hop] at h
      subst h; simp [spineV, hop]
  | str s => simp [extract_and_conditions] at h; subst h; rfl
  | strList l => simp [extract_and_conditions] at h; subst h; rfl
  | vint n => simp [extract_and_conditions] at h; subst h; rfl
  | vnone => simp [extract_and_conditions] at h; subst h; rfl

theorem extract_atom {a v : Val} (h : a ∈ extract_and_conditions v) :
    extract_and_conditions a = [a] := by
  have hs := spineV_of_mem_extract h
  cases a with
  | condOp op l r =>
    have hop : ¬ op = "AND" := by
      intro hop; simp [spineV, hop] at hs
    simp [extract_and_conditions, hop]
  | leaf c => rfl
  | str s => rfl
  | strList l => rfl
  | vint n => rfl
  | vnone => rfl

/-- `CostCalculator._estimate_condition_selectivity` (the `tree` argument is
unused by the source).  Note the source checks `'=' in s` first, which also
matches `<=`, `>=` and `!=`, and checks `'<' in s` before `<>`. -/
def estimate_condition_selectivity : Val → ℚ
  | .leaf c =>
    if pyCharIn c '=' then 1/10
    else if strHasSub c ">=" || strHasSub c "<=" then 2/5
    else if pyCharIn c '>' || pyCharIn c '<' then 3/10
    else if strHasSub c "<>" || strHasSub c "!=" then 9/10
    else 1/2
  | .condOp op l r =>
    let ls := estimate_condition_selectivity l
    let rs := estimate_condition_selectivity r
    if pyUpper op = "AND" then ls * rs
    else if pyUpper op = "OR" then ls + rs - ls * rs
    else (ls + rs) / 2
  | _ => 1/2

/-- `CostCalculator._estimate_selectivity`: dispatch on the runtime type of
the condition object (`None`, `ConditionNode`, `str`, anything else). -/
def estimate_selectivity : Val → ℚ
  | .vnone => 1
  | .leaf c => estimate_condition_selectivity (.leaf c)
  | .condOp op l r => estimate_condition_selectivity (.condOp op l r)
  | .str s =>
    if pyCharIn s '=' then 1/10
    else if pyCharIn s '>' || pyCharIn s '<' then 3/10
    else if strHasSub (pyUpper s) "LIKE" then 1/5
    else 1/2
  | _ => 1/2

/-! ## Statistics (`cost_calculator.py`) -/

structure RelStats where
  nr : ℚ
  lr : ℚ
  br : ℚ
  fr : ℚ
  distinct_values : List (String × Nat)
  deriving DecidableEq, Repr

def assocUpdate (k : String) (v : RelStats) :
    List (String × RelStats) → List (String × RelStats)
  | [] => [(k, v)]
  | (k', v') :: rest =>
    if k' = k then (k, v) :: rest else (k', v') :: assocUpdate k v rest

structure Statistics where
  relations : List (String × RelStats)
  deriving DecidableEq, Repr

def defaultRelStats : RelStats :=
  { nr := 1000, lr := 100, br := 10, fr := 100, distinct_values := [] }

def Statistics.get_relation_stats (st : Statistics) (name : String) :
    RelStats :=
  ((st.relations.find? (fun p => p.1 = name)).map Prod.snd).getD
    defaultRelStats

/-- `Statistics.add_relation` including the derivation of missing `br`/`fr`
(spec section 3.3). -/
def qceil (x : ℚ) : ℚ :=
  ((⌈x⌉ : ℤ) : ℚ)

def Statistics.add_relation (st : Statistics) (name : String) (nr lr : ℚ)
    (br? fr? : Option ℚ) : Statistics :=
  let (br, fr) :=
    match br?, fr? with
    | none, some fr => (qceil (nr / fr), fr)
    | none, none => (qceil (nr / 100), (100 : ℚ))
    | some br, none => (br, if 0 < br then qceil (nr / br) else 1)
    | some br, some fr => (br, fr)
  { relations := assocUpdate name
      { nr := nr, lr := lr, br := br, fr := fr, distinct_values := [] }
      st.relations }

/-- `CostCalculator._init_default_statistics` applied to an empty
`Statistics()`: the statistics object held by the cost calculator that
`PlanOptimizer` constructs. -/
def defaultStatistics : Statistics :=
  ["employees", "departments", "projects", "emp", "dept", "proj"].foldl
    (fun st rel =>
      if (st.relations.find? (fun p => p.1 = rel)).isSome then st
      else st.add_relation rel 1000 100 (some 10) (some 100))
    { relations := [] }

/-! ## Cost model (`CostCalculator._calculate_tree_cost`)

Python floats are idealised as real numbers (the ORDER-BY formula uses
`math.log2`, so the cost type must contain logarithms). -/

/-- `CostCalculator._calculate_table_cost`: look the node's `val` up in the
statistics (a non-string `val` is never a key, hence gets the default). -/
def table_cost (st : Statistics) : Val → ℚ
  | .str s => (st.get_relation_stats s).br
  | _ => defaultRelStats.br

mutual
/-- `CostCalculator._calculate_tree_cost` and the per-operator helpers it
dispatches to, split by child count so that the recursion is structural:
a missing child costs 0; a binary operator with fewer than two children
costs the sum of the children; an unknown operator costs the sum of its
children.  Python floats are idealised as reals (the ORDER-BY formula
uses `math.log2`). -/
noncomputable def calculate_tree_cost (st : Statistics) : QueryTree → ℝ
  | .node ty v [] _ =>
    if pyUpper ty = "TABLE" then (table_cost st v : ℝ) else 0
  | .node ty v [c] _ =>
    let nt := pyUpper ty
    if nt = "TABLE" then (table_cost st v : ℝ)
    else if nt = "SELECT" then
      calculate_tree_cost st c * (estimate_selectivity v : ℝ)
    else if nt = "PROJECT" then
      let cc := calculate_tree_cost st c
      cc + cc * (1/10 : ℝ)
    else if nt = "ORDER-BY" then
      let cc := calculate_tree_cost st c
      let et := cc * 100
      cc + et * Real.logb 2 (max et 1)
    else if nt = "UPDATE" then
      let cc := calculate_tree_cost st c
      cc + cc * (3/2 : ℝ)
    else if nt = "LIMIT" then
      let lv : ℝ := match v with | .vint n => (n : ℝ) | _ => 100
      calculate_tree_cost st c * min (lv / 1000) 1
    else calculate_tree_cost st c
  | .node ty v (c1 :: c2 :: rest) _ =>
    let nt := pyUpper ty
    if nt = "TABLE" then (table_cost st v : ℝ)
    else if nt = "SELECT" then
      calculate_tree_cost st c1 * (estimate_selectivity v : ℝ)
    else if nt = "PROJECT" then
      let cc := calculate_tree_cost st c1
      cc + cc * (1/10 : ℝ)
    else if nt = "JOIN" then
      let l := calculate_tree_cost st c1
      let r := calculate_tree_cost st c2
      l * r + (l + r) * (1/2 : ℝ)
    else if nt = "NATURAL-JOIN" then
      let l := calculate_tree_cost st c1
      let r := calculate_tree_cost st c2
      (l + r) + (l + r) * (3/10 : ℝ)
    else if nt = "HASH-JOIN" then
      let l := calculate_tree_cost st c1
      let r := calculate_tree_cost st c2
      l + r + (l + r) * (1/5 : ℝ)
    else if nt = "CARTESIAN-PRODUCT" then
      calculate_tree_cost st c1 * calculate_tree_cost st c2
    else if nt = "ORDER-BY" then
      let cc := calculate_tree_cost st c1
      let et := cc * 100
      cc + et * Real.logb 2 (max et 1)
    else if nt = "UPDATE" then
      let cc := calculate_tree_cost st c1
      cc + cc * (3/2 : ℝ)
    else if nt = "LIMIT" then
      let lv : ℝ := match v with | .vint n => (n : ℝ) | _ => 100
      calculate_tree_cost st c1 * min (lv / 1000) 1
    else
      calculate_tree_cost st c1 + calculate_tree_cost st c2 + cost_sum st rest

/-- Sum of the costs of a list of children. -/
noncomputable def cost_sum (st : Statistics) : List QueryTree → ℝ
  | [] => 0
  | c :: cr => calculate_tree_cost st c + cost_sum st cr
end

/-! ## Rule 1: `OptimizationRules.push_down_selection` -/

/-- The chain built by `OptimizationRules._decompose_conjunctive_selection`:
`current = child; for cond in reversed(atoms): current = SELECT(cond, [current])`.
Fresh SELECT nodes carry no alias. -/
def buildChain (atoms : List Val) (child : QueryTree) : QueryTree :=
  atoms.foldr (fun a acc => QueryTree.node "SELECT" a [acc] none) child

mutual
/-- Total number of AND-spine nodes sitting in the condition of a SELECT
node that has at least one child (exactly the SELECT nodes that
`_decompose_conjunctive_selection` can split). -/
def spineSel : QueryTree → Nat
  | .node ty v cs _ =>
    (if ty = "SELECT" ∧ cs ≠ [] then spineV v else 0) + spineSelList cs

def spineSelList : List QueryTree → Nat
  | [] => 0
  | c :: cs => spineSel c + spineSelList cs
end

theorem spineSel_le_of_mem {c : QueryTree} {cs : List QueryTree}
    (h : c ∈ cs) : spineSel c ≤ spineSelList cs := by
  induction cs with
  | nil => cases h
  | cons x xs ih =>
    rcases List.mem_cons.mp h with rfl | hx
    · simp only [spineSelList]; all_goals omega
    · have := ih hx
      simp only [spineSelList]; all_goals omega

theorem spineSel_buildChain (atoms : List Val) (c : QueryTree)
    (h : ∀ a ∈ atoms, spineV a = 0) :
    spineSel (buildChain atoms c) = spineSel c := by
  induction atoms with
  | nil => rfl
  | cons a as ih =>
    have ha : spineV a = 0 := h a (List.mem_cons_self a as)
    have ih' := ih (fun x hx => h x (List.mem_cons_of_mem a hx))
    simp only [buildChain, List.foldr] at ih' ⊢
    simp [spineSel, spineSelList, ha, ih']

theorem spineSelList_eq_zero (l : List QueryTree)
    (h : ∀ x ∈ l, spineSel x = 0) : spineSelList l = 0 := by
  induction l with
  | nil => rfl
  | cons z zs ih =>
    simp only [spineSelList]
    rw [h z (List.mem_cons_self z zs),
      ih (fun x hx => h x (List.mem_cons_of_mem z hx))]

theorem natLexHelper {a1 b1 a2 b2 : Nat} (h1 : a1 ≤ a2) (h2 : b1 < b2) :
    Prod.Lex (· < ·) (· < ·) (a1, b1) (a2, b2) := by
  rcases lt_or_eq_of_le h1 with h | rfl
  · exact Prod.Lex.left _ _ h
  · exact Prod.Lex.right _ h2

theorem natLexLeft {a1 b1 a2 b2 : Nat} (h : a1 < a2) :
    Prod.Lex (· < ·) (· < ·) (a1, b1) (a2, b2) :=
  Prod.Lex.left _ _ h

/-- `OptimizationRules.push_down_selection`, with the invariant that the
result has no decomposable SELECT left (needed for the termination of the
source's re-application of the rule to its own output).  Mirrors the
source: children are processed bottom-up; on a SELECT node the node is
decomposed by `_decompose_conjunctive_selection` (identity when the node
has no child or its condition yields at most one atom; otherwise the chain
over the processed first child, dropping any further children, exactly as
the source only reads `childs[0]`); Python compares the decomposition
result against the original node by object identity, and a fresh chain is
returned precisely when at least two atoms were extracted, so the source's
`if tree != original` re-application happens exactly in that branch. -/
def pushAux : QueryTree → {r : QueryTree // spineSel r = 0}
  | .node ty v cs a =>
    if hty : ty = "SELECT" then
      match cs with
      | [] => ⟨.node ty v [] a, by simp [spineSel, spineSelList, hty]⟩
      | c :: cr =>
        match pushAux c with
        | ⟨c0, hc0⟩ =>
          let rest : List {r : QueryTree // spineSel r = 0} :=
            cr.attach.map (fun x => pushAux x.1)
          if hk : (extract_and_conditions v).length ≤ 1 then
            ⟨.node ty v (c0 :: rest.map Subtype.val) a, by
              have hv : spineV v = 0 := by
                have := length_extract v; omega
              have hz : ∀ x ∈ c0 :: rest.map Subtype.val, spineSel x = 0 := by
                intro x hx
                rcases List.mem_cons.mp hx with rfl | hx
                · exact hc0
                · rcases List.mem_map.mp hx with ⟨y, _, rfl⟩
                  exact y.2
              have h2 := spineSelList_eq_zero _ hz
              simp only [spineSel]
              rw [h2, hv]
              simp⟩
          else
            pushAux (buildChain (extract_and_conditions v) c0)
    else
      let cs2 : List {r : QueryTree // spineSel r = 0} :=
        cs.attach.map (fun c => pushAux c.1)
      ⟨.node ty v (cs2.map Subtype.val) a, by
        have hz : ∀ x ∈ cs2.map Subtype.val, spineSel x = 0 := by
          intro x hx
          rcases List.mem_map.mp hx with ⟨y, _, rfl⟩
          exact y.2
        have h2 := spineSelList_eq_zero _ hz
        simp only [spineSel]
        rw [h2]
        simp [hty]⟩
termination_by t => (spineSel t, QueryTree.tsize t)
decreasing_by
  all_goals
    first
      | (refine natLexHelper ?_ ?_
         · simp only [spineSel, spineSelList]
           split
           all_goals omega
         · simp only [QueryTree.tsize, QueryTree.tsizeList]
           have := QueryTree.tsize_pos c
           omega)
      | (have h1 := spineSel_le_of_mem x.2
         have h2 := QueryTree.tsize_le_tsizeList x.2
         refine natLexHelper ?_ ?_
         · simp only [spineSel, spineSelList]
           split
           all_goals omega
         · simp only [QueryTree.tsize, QueryTree.tsizeList]
           have := QueryTree.tsize_pos c
           omega)
      | (refine natLexLeft ?_
         rw [spineSel_buildChain _ _ (fun x hx => spineV_of_mem_extract hx),
           hc0]
         rw [length_extract] at hk
         simp only [spineSel, spineSelList]
         rw [if_pos ⟨hty, by simp⟩]
         omega)
      | (have h1 := spineSel_le_of_mem c.2
         have h2 := QueryTree.tsize_lt_of_mem c.2
         refine natLexHelper ?_ (h2 _ _ _)
         simp only [spineSel]
         split
         all_goals omega)

def push_down_selection (t : QueryTree) : QueryTree :=
  (pushAux t).1

theorem mapPushFix {cs : List QueryTree}
    (h : ∀ c ∈ cs, push_down_selection c = c) :
    cs.map push_down_selection = cs := by
  induction cs with
  | nil => rfl
  | cons c cr ih =>
    simp only [List.map]
    rw [h c (List.mem_cons_self c cr),
      ih (fun x hx => h x (List.mem_cons_of_mem c hx))]

theorem push_select_nil (v : Val) (a : Option String) :
    push_down_selection (.node "SELECT" v [] a) = .node "SELECT" v [] a := by
  simp [push_down_selection, pushAux]

theorem push_nonselect {ty : String} (h : ty ≠ "SELECT") (v : Val)
    (cs : List QueryTree) (a : Option String) :
    push_down_selection (.node ty v cs a)
      = .node ty v (cs.map push_down_selection) a := by
  simp only [push_down_selection]
  rw [pushAux]
  simp [h, List.map_map, Function.comp, push_down_selection]

theorem push_select_cons_k1 {v : Val} (hk : (extract_and_conditions v).length ≤ 1)
    (c : QueryTree) (cr : List QueryTree) (a : Option String) :
    push_down_selection (.node "SELECT" v (c :: cr) a)
      = .node "SELECT" v ((c :: cr).map push_down_selection) a := by
  simp only [push_down_selection]
  rw [pushAux]
  simp [hk, List.map_map, Function.comp, push_down_selection]

theorem push_select_cons_k2 {v : Val} (hk : 2 ≤ (extract_and_conditions v).length)
    (c : QueryTree) (cr : List QueryTree) (a : Option String) :
    push_down_selection (.node "SELECT" v (c :: cr) a)
      = push_down_selection
          (buildChain (extract_and_conditions v) (push_down_selection c)) := by
  simp only [push_down_selection]
  rw [pushAux]
  have hk' : ¬ (extract_and_conditions v).length ≤ 1 := by omega
  simp [hk']

/-- The result of rule 1 contains no SELECT node (with a child) whose
condition still has an AND spine. -/
theorem spineSel_push (t : QueryTree) :
    spineSel (push_down_selection t) = 0 :=
  (pushAux t).2

/-- On trees with no decomposable SELECT, rule 1 is the identity. -/
theorem push_of_spineSel_zero :
    ∀ t, spineSel t = 0 → push_down_selection t = t := by
  refine QueryTree.myInduction _ ?_
  intro ty v cs a ih h
  have hlist : spineSelList cs = 0 := by
    simp only [spineSel] at h
    omega
  have hchild : ∀ c ∈ cs, push_down_selection c = c := by
    intro c hc
    refine ih c hc ?_
    have := spineSel_le_of_mem hc
    omega
  by_cases hty : ty = "SELECT"
  · subst hty
    cases cs with
    | nil => exact push_select_nil v a
    | cons c cr =>
      have hv : spineV v = 0 := by
        simp [spineSel] at h
        omega
      have hk : (extract_and_conditions v).length ≤ 1 := by
        rw [length_extract, hv]
      rw [push_select_cons_k1 hk, mapPushFix hchild]
  · rw [push_nonselect hty, mapPushFix hchild]

/-- Rule 1 is idempotent. -/
theorem push_idem (t : QueryTree) :
    push_down_selection (push_down_selection t) = push_down_selection t :=
  push_of_spineSel_zero _ (spineSel_push t)

/-- The decomposition equation in closed form: on a conjunctive SELECT the
rule returns the chain of extracted atoms over the processed first child. -/
theorem push_select_chain {v : Val} (hk : 2 ≤ (extract_and_conditions v).length)
    (c : QueryTree) (cr : List QueryTree) (a : Option String) :
    push_down_selection (.node "SELECT" v (c :: cr) a)
      = buildChain (extract_and_conditions v) (push_down_selection c) := by
  rw [push_select_cons_k2 hk]
  refine push_of_spineSel_zero _ ?_
  rw [spineSel_buildChain _ _ (fun x hx => spineV_of_mem_extract hx)]
  exact spineSel_push c

/-! ## Rule 3: `OptimizationRules.combine_selections` -/

mutual
/-- `OptimizationRules.combine_selections`: a SELECT whose first child is a
SELECT is folded into one SELECT with an AND condition over the grandchild
(further children of either node are dropped, as the source only reads
`childs[0]`), and the function returns at that point without recursing;
otherwise children are combined recursively. -/
def combine_selections : QueryTree → QueryTree
  | .node ty v cs a =>
    match cs with
    | (.node cty cv ccs _) :: _ =>
      if ty = "SELECT" ∧ cty = "SELECT" then
        .node "SELECT" (.condOp "AND" v cv)
          (match ccs with | [] => [] | x :: _ => [x]) none
      else .node ty v (combineList cs) a
    | [] => .node ty v [] a

def combineList : List QueryTree → List QueryTree
  | [] => []
  | c :: cr => combine_selections c :: combineList cr
end

/-! ## Rule 2: `OptimizationRules.swap_selection` -/

/-- `OptimizationRules.swap_selection`: σ_p(σ_c(g)) becomes
σ_c(swap(σ_p(g))) (the source builds the two fresh nodes and then recurses
into the new parent's children); a SELECT-over-SELECT with no grandchild is
returned untouched; any other node recurses into its children. -/
def swap_selection : QueryTree → QueryTree
  | .node "SELECT" v ((.node "SELECT" cv (g :: _) _) :: _) _ =>
    .node "SELECT" cv [swap_selection (.node "SELECT" v [g] none)] none
  | .node "SELECT" v ((.node "SELECT" cv [] ca) :: rest) a =>
    .node "SELECT" v ((.node "SELECT" cv [] ca) :: rest) a
  | .node ty v cs a =>
    .node ty v (cs.attach.map fun c => swap_selection c.1) a
termination_by t => QueryTree.tsize t
decreasing_by
  all_goals
    first
      | (simp only [QueryTree.tsize, QueryTree.tsizeList]
         omega)
      | (have h2 := QueryTree.tsize_lt_of_mem c.2
         exact h2 _ _ _)

/-! ## Attribute helpers (`rules.py`) -/

def dedupFirst {α : Type} [DecidableEq α] : List α → List α
  | [] => []
  | x :: xs =>
    let rest := dedupFirst xs
    if x ∈ xs then
      x :: (rest.filter (fun y => y ≠ x))
    else x :: rest

/-- Best-effort rendering of a payload, standing in for Python `str(val)`
in the attribute helpers (only reached for payloads that real query trees
never store in a PROJECT node; never relevant to the claims). -/
def valToString : Val → String
  | .str s => s
  | .strList l => pyIntercalate ", " l
  | .vint n => toString n
  | .vnone => "None"
  | .leaf c => c
  | .condOp op _ _ => op

/-- `OptimizationRules._get_attributes_from_tree`: TABLE nodes contribute
`name.*` (and `alias.*` when a non-empty alias is present); PROJECT nodes
contribute their attribute list; children are collected recursively. -/
def get_attributes_from_tree : QueryTree → List String
  | .node ty v cs al =>
    let own : List String :=
      if ty = "TABLE" then
        (match v with | .str s => [s ++ ".*"] | _ => []) ++
        (match al with
          | some s => if s = "" then [] else [s ++ ".*"]
          | none => [])
      else if ty = "PROJECT" then
        match v with
        | .str s => (pySplit ',' s).map pyStrip
        | .strList l => l
        | other => [valToString other]
      else []
    own ++ (cs.attach.map fun c => get_attributes_from_tree c.1).flatten
termination_by t => QueryTree.tsize t
decreasing_by
  all_goals
    exact QueryTree.tsize_lt_of_mem c.2 _ _ _

def isWordChar (c : Char) : Bool :=
  c.isAlpha || c.isDigit || c = '_'

def isIdentStart (c : Char) : Bool :=
  c.isAlpha || c = '_'

theorem length_dropWhile_le {α : Type} (p : α → Bool) (l : List α) :
    (l.dropWhile p).length ≤ l.length := by
  induction l with
  | nil => simp
  | cons x xs ih =>
    by_cases h : p x
    · simp only [List.dropWhile, h]
      simp only [List.length_cons]
      omega
    · simp only [List.dropWhile, h]
      simp

/-- The matches of the regex
`[A-Za-z_][A-Za-z0-9_]*\.[A-Za-z_][A-Za-z0-9_]*` in left-to-right,
non-overlapping order (the scan used by
`OptimizationRules._get_attributes_from_condition`); the scan consumes at
least one character per step, so the fuel `length + 1` used by `findQual`
below can never run out. -/
def findQualF : Nat → List Char → List String
  | 0, _ => []
  | _ + 1, [] => []
  | n + 1, c :: rest =>
    if isIdentStart c then
      let run1 := (c :: rest).takeWhile isWordChar
      match (c :: rest).dropWhile isWordChar with
      | '.' :: d :: rest2 =>
        if isIdentStart d then
          let run2 := (d :: rest2).takeWhile isWordChar
          let after2 := (d :: rest2).dropWhile isWordChar
          (String.mk (run1 ++ '.' :: run2)) :: findQualF n after2
        else findQualF n rest
      | _ => findQualF n rest
    else findQualF n rest

def findQual (l : List Char) : List String :=
  findQualF (l.length + 1) l

/-- `OptimizationRules._get_attributes_from_condition`: collect qualified
identifiers from leaf condition strings; `list(set(...))` is applied at
every level (its iteration order is unspecified in Python; first-occurrence
order is used here, and no claim depends on the order). -/
def get_attributes_from_condition : Val → List String
  | .leaf c => dedupFirst (findQual c.data)
  | .condOp _ l r =>
    dedupFirst
      (get_attributes_from_condition l ++ get_attributes_from_condition r)
  | _ => []

/-- `OptimizationRules._attribute_belongs_to`. -/
def attribute_belongs_to (attr : String) (table_attrs : List String) : Bool :=
  if ¬ strHasSub attr "." then false
  else
    let p := pyLower ((pySplit '.' attr).headD "")
    table_attrs.any (fun ta =>
      (pyEndsWith ta ".*" &&
        (let tn := pyLower (pyReplace ta ".*" "")
         strHasSub tn p || pyStartsWith tn p))
      || pyStartsWith (pyLower ta) (p ++ "."))

/-- Left fold `combined = AND(combined, c)` used to rebuild a conjunction
from a partition bucket (`rules.py` lines 232-253). -/
def combineAnd1 : Val → List Val → Val
  | acc, [] => acc
  | acc, c :: cr => combineAnd1 (.condOp "AND" acc c) cr

/-- The three buckets of `distribute_selection_over_join`: conditions on
the left side only, on the right side only, and everything else. -/
def sidePartition (la ra : List String) : List Val →
    List Val × List Val × List Val
  | [] => ([], [], [])
  | c :: cr =>
    let (ls, rs, bs) := sidePartition la ra cr
    let cattrs := get_attributes_from_condition c
    if cattrs = [] then (ls, rs, c :: bs)
    else
      let il := cattrs.all (fun x => attribute_belongs_to x la)
      let ir := cattrs.all (fun x => attribute_belongs_to x ra)
      if il && !ir then (c :: ls, rs, bs)
      else if ir && !il then (ls, c :: rs, bs)
      else (ls, rs, c :: bs)

/-! ## Rule 7: `OptimizationRules.distribute_selection_over_join` -/

mutual
/-- `OptimizationRules.distribute_selection_over_join`: children first,
then on σ_cond(join(l, r, …)) the AND-atoms of `cond` are partitioned by
side; one-sided buckets become SELECTs directly above `l` / `r`, the rest
stays above the rebuilt join. -/
def distribute_selection_over_join : QueryTree → QueryTree
  | .node ty v cs a =>
    match ty, dsojList cs with
    | "SELECT", (.node cty cv ccs ca) :: rest =>
      if cty = "JOIN" ∨ cty = "NATURAL-JOIN" then
        match ccs with
        | l :: r :: _crest =>
          let la := get_attributes_from_tree l
          let ra := get_attributes_from_tree r
          let (ls, rs, bs) := sidePartition la ra (extract_and_conditions v)
          let new_left :=
            match ls with
            | [] => l
            | c :: cr => QueryTree.node "SELECT" (combineAnd1 c cr) [l] none
          let new_right :=
            match rs with
            | [] => r
            | c :: cr => QueryTree.node "SELECT" (combineAnd1 c cr) [r] none
          let new_join := QueryTree.node cty cv [new_left, new_right] none
          match bs with
          | [] => new_join
          | c :: cr =>
            QueryTree.node "SELECT" (combineAnd1 c cr) [new_join] none
        | _ => .node ty v (QueryTree.node cty cv ccs ca :: rest) a
      else .node ty v (QueryTree.node cty cv ccs ca :: rest) a
    | ty', cs' => .node ty' v cs' a

def dsojList : List QueryTree → List QueryTree
  | [] => []
  | c :: cr => distribute_selection_over_join c :: dsojList cr
end

/-! ## Rule 8: `OptimizationRules._helper_distribute_projection_over_join`
and `push_down_projection` -/

/-- The SELECT chain walk in the rule-8 helper: starting at the PROJECT's
child, collect consecutive SELECT nodes and return them together with the
first non-SELECT descendant (`None` when a childless SELECT ends the
chain). -/
def walkSelects : QueryTree → List QueryTree × Option QueryTree
  | .node "SELECT" v [] a => ([.node "SELECT" v [] a], none)
  | .node "SELECT" v (c :: cr) a =>
    let (ns, j) := walkSelects c
    (QueryTree.node "SELECT" v (c :: cr) a :: ns, j)
  | t => ([], some t)

/-- `OptimizationRules._helper_distribute_projection_over_join` (also the
body of `distribute_projection_over_join`): on π_L(σ* (l ⋈ r)) partition L
into side lists, add the join attributes each side still needs, project
each side, rebuild the σ chain, and keep an outer π_L when join attributes
were added.  `list(set(...))` order is modelled as first-occurrence
order.  The left bucket here lists the left-side attributes before the
ambiguous ones assigned left by default, while the Python loop interleaves
them in input order; the bucket is only consumed through membership tests
and `list(set(...))`, whose iteration order is unspecified, so the two
agree up to that already-unspecified order. -/
def helper_distribute_projection_over_join (tree : QueryTree) : QueryTree :=
  match tree with
  | .node "PROJECT" v (child :: crest) a =>
    let (intermediate, j?) := walkSelects child
    match j? with
    | none => tree
    | some (.node jty jv jcs ja) =>
      if hj : jty = "JOIN" ∨ jty = "NATURAL-JOIN" then
        match jcs with
        | l :: r :: _ =>
          let project_attrs : List String :=
            match v with
            | .str s => (pySplit ',' s).map pyStrip
            | .strList lst => lst
            | other => [valToString other]
          let la := get_attributes_from_tree l
          let ra := get_attributes_from_tree r
          let ja' := get_attributes_from_condition jv
          let L1 := project_attrs.filter (fun x => attribute_belongs_to x la)
          let rest0 := project_attrs.filter
            (fun x => ¬ attribute_belongs_to x la)
          let L2 := rest0.filter (fun x => attribute_belongs_to x ra)
          let L1' := L1 ++ rest0.filter (fun x => ¬ attribute_belongs_to x ra)
          let L3 := ja'.filter
            (fun x => x ∉ L1' ∧ attribute_belongs_to x la)
          let L4 := ja'.filter
            (fun x => x ∉ L2 ∧ attribute_belongs_to x ra)
          let new_left :=
            if L1' ++ L3 = [] then l
            else QueryTree.node "PROJECT"
              (.str (pyIntercalate ", " (dedupFirst (L1' ++ L3)))) [l]
              none
          let new_right :=
            if L2 ++ L4 = [] then r
            else QueryTree.node "PROJECT"
              (.str (pyIntercalate ", " (dedupFirst (L2 ++ L4)))) [r]
              none
          let new_join := QueryTree.node jty jv [new_left, new_right] none
          let rebuilt := intermediate.foldr
            (fun sel cur => QueryTree.node sel.type sel.val [cur] none)
            new_join
          if L3 = [] ∧ L4 = [] then rebuilt
          else QueryTree.node "PROJECT"
            (.str (pyIntercalate ", " project_attrs)) [rebuilt] none
        | _ => tree
      else tree
  | t => t

/-- `OptimizationRules.push_down_projection`, with an explicit fuel
parameter: after the PROJECT case the source contains a second loop
`for child in tree.childs: tree.childs[i] = push_down_projection(child)`
whose index `i` is left over from the earlier enumeration (it stays at the
last index), so for two or more children the last slot ends up holding the
rule applied twice to the second-to-last processed child, and for exactly
one child the single slot is processed twice.  Those re-applications to
already-produced outputs are not structurally decreasing, hence the fuel
(0 fuel returns the argument; every theorem about this function evaluates
it at inputs whose recursion depth is far below the fuel used). -/
def push_down_projection_fuel : Nat → QueryTree → QueryTree
  | 0, t => t
  | n + 1, .node ty v cs a =>
    let cs' := cs.map (push_down_projection_fuel n)
    if ty = "PROJECT" then
      helper_distribute_projection_over_join (.node ty v cs' a)
    else
      match cs' with
      | [] => .node ty v [] a
      | [c0] => .node ty v [push_down_projection_fuel n c0] a
      | _ =>
        .node ty v
          (cs'.take (cs'.length - 1) ++
            [push_down_projection_fuel n (push_down_projection_fuel n
              (cs'.getD (cs'.length - 2) (.node "" .vnone [] none)))]) a

def push_down_projection (t : QueryTree) : QueryTree :=
  push_down_projection_fuel (QueryTree.tsize t + 16) t

/-! ## Rules 4, 5, 6: unimplemented stubs in the source -/

/-- `OptimizationRules.combine_cartesian_with_selection`: the source body
is `# TODO: Implement cartesian-to-join transformation; return tree`. -/
def combine_cartesian_with_selection (t : QueryTree) : QueryTree := t

/-- `OptimizationRules.reorder_joins`: the source body is
`# TODO: Implement join reordering; return tree`. -/
def reorder_joins (t : QueryTree) : QueryTree := t

/-- `OptimizationRules.apply_associativity`: the source body is
`# TODO: Implement join associativity; return tree`. -/
def apply_associativity (t : QueryTree) : QueryTree := t

/-! ## Plan enumerator (`plan_optimizer.py`) -/

/-- `Modelled from the spec:` the `ParsedQuery` class of the missing
`tree.parsed_query` module, as used by the optimizer: it is constructed
from the SQL string and the algebra tree (`ParsedQuery(query, tree)`) and
exposes them as `query` and `query_tree`. -/
structure ParsedQuery where
  query : String
  query_tree : QueryTree
  deriving DecidableEq, Repr

def generate_selection_first_plan (t : QueryTree) : QueryTree :=
  let t := push_down_selection t
  let t := swap_selection t
  let t := combine_selections t
  let t := push_down_projection t
  let t := distribute_selection_over_join t
  let t := combine_cartesian_with_selection t
  let t := reorder_joins t
  apply_associativity t

def generate_projection_first_plan (t : QueryTree) : QueryTree :=
  let t := push_down_projection t
  let t := push_down_selection t
  let t := combine_selections t
  let t := distribute_selection_over_join t
  let t := combine_cartesian_with_selection t
  let t := reorder_joins t
  apply_associativity t

def generate_balanced_plan (t : QueryTree) : QueryTree :=
  let t := push_down_selection t
  let t := swap_selection t
  let t := push_down_projection t
  let t := distribute_selection_over_join t
  let t := combine_selections t
  let t := combine_cartesian_with_selection t
  let t := reorder_joins t
  apply_associativity t

def generate_aggressive_combination_plan (t : QueryTree) : QueryTree :=
  let t := push_down_selection t
  let t := push_down_projection t
  let t := combine_selections t
  let t := distribute_selection_over_join t
  let t := combine_cartesian_with_selection t
  let t := reorder_joins t
  apply_associativity t

def generate_conservative_plan (t : QueryTree) : QueryTree :=
  let t := push_down_selection t
  let t := combine_selections t
  combine_cartesian_with_selection t

def generate_swap_optimized_plan (t : QueryTree) : QueryTree :=
  let t := push_down_selection t
  let t := swap_selection t
  let t := combine_selections t
  let t := push_down_projection t
  let t := distribute_selection_over_join t
  let t := combine_cartesian_with_selection t
  let t := reorder_joins t
  apply_associativity t

/-- The six candidate plans of `PlanOptimizer.optimize_tree`, in order
(each strategy receives `copy.deepcopy(original_tree)`, which under value
semantics is the tree itself). -/
def candidate_plans (t : QueryTree) : List QueryTree :=
  [generate_selection_first_plan t,
   generate_projection_first_plan t,
   generate_balanced_plan t,
   generate_aggressive_combination_plan t,
   generate_conservative_plan t,
   generate_swap_optimized_plan t]

open Classical in
/-- Python `min(..., key=...)` over a nonempty list: scan keeping the
current best, replacing only on a strictly smaller key, so the first
minimum wins. -/
noncomputable def select_best : List (QueryTree × ℝ) → QueryTree × ℝ →
    QueryTree × ℝ
  | [], best => best
  | x :: xs, best => select_best xs (if x.2 < best.2 then x else best)

/-- `PlanOptimizer.optimize_tree`: build the six candidate plans, score
each with `CostCalculator._calculate_tree_cost` (the optimizer's calculator
carries the default statistics), and return a `ParsedQuery` with the
lowest-cost tree. -/
noncomputable def optimize_tree (pq : ParsedQuery) : ParsedQuery :=
  let results := (candidate_plans pq.query_tree).map
    (fun p => (p, calculate_tree_cost defaultStatistics p))
  match results with
  | [] => ⟨pq.query, pq.query_tree⟩
  | x :: xs => ⟨pq.query, (select_best xs x).1⟩

/-! ## Lexer (`parser/lexer.py`) -/

def KEYWORDS : List String :=
  ["SELECT", "FROM", "WHERE", "JOIN", "ON", "AND", "OR", "ORDER", "BY",
   "INNER", "LEFT", "RIGHT", "OUTER"]

def wordDot (c : Char) : Bool :=
  isWordChar c || c = '.'

/-- Scan for a closing quote: returns the content before it and the
remainder after it. -/
def splitClose (q : Char) : List Char → Option (List Char × List Char)
  | [] => none
  | c :: rest =>
    if c = q then some ([], rest)
    else
      match splitClose q rest with
      | none => none
      | some (content, rem) => some (c :: content, rem)

theorem splitClose_length {q : Char} :
    ∀ {l content rem : List Char}, splitClose q l = some (content, rem) →
      rem.length < l.length := by
  intro l
  induction l with
  | nil => intro content rem h; simp [splitClose] at h
  | cons c rest ih =>
    intro content rem h
    simp only [splitClose] at h
    by_cases hc : c = q
    · simp [hc] at h
      rcases h with ⟨h1, h2⟩
      subst h2
      simp
    · simp [hc] at h
      match hs : splitClose q rest with
      | none => rw [hs] at h; simp at h
      | some (content', rem') =>
        rw [hs] at h
        simp at h
        rcases h with ⟨h1, h2⟩
        subst h2
        have := ih hs
        simp
        omega

/-- The token scan of `lexer.tokenize`: the regex alternatives
`'[^']*'`, `"[^"]*"`, `[A-Za-z_][A-Za-z0-9_.]*`, `<=`, `>=`, `<>`, `!=`,
`=`, `<`, `>`, `*`, `,`, `(`, `)`, `\d+` are tried in order at each
position; a position where none matches is skipped.  Every step consumes
at least one character, so the fuel `length + 1` used by `scanTok` below
can never run out. -/
def scanTokF : Nat → List Char → List String
  | 0, _ => []
  | _ + 1, [] => []
  | n + 1, c :: rest =>
    if c = '\'' then
      match splitClose '\'' rest with
      | some (content, rem) =>
        String.mk ('\'' :: (content ++ ['\''])) :: scanTokF n rem
      | none => scanTokF n rest
    else if c = '"' then
      match splitClose '"' rest with
      | some (content, rem) =>
        String.mk ('"' :: (content ++ ['"'])) :: scanTokF n rem
      | none => scanTokF n rest
    else if isIdentStart c then
      String.mk (c :: rest.takeWhile wordDot) ::
        scanTokF n (rest.dropWhile wordDot)
    else if c = '<' then
      match rest with
      | '=' :: r2 => "<=" :: scanTokF n r2
      | '>' :: r2 => "<>" :: scanTokF n r2
      | r => "<" :: scanTokF n r
    else if c = '>' then
      match rest with
      | '=' :: r2 => ">=" :: scanTokF n r2
      | r => ">" :: scanTokF n r
    else if c = '!' then
      match rest with
      | '=' :: r2 => "!=" :: scanTokF n r2
      | r => scanTokF n r
    else if c = '=' then "=" :: scanTokF n rest
    else if c = '*' then "*" :: scanTokF n rest
    else if c = ',' then "," :: scanTokF n rest
    else if c = '(' then "(" :: scanTokF n rest
    else if c = ')' then ")" :: scanTokF n rest
    else if c.isDigit then
      String.mk (c :: rest.takeWhile Char.isDigit) ::
        scanTokF n (rest.dropWhile Char.isDigit)
    else scanTokF n rest

def scanTok (l : List Char) : List String :=
  scanTokF (l.length + 1) l

/-- `lexer.tokenize`: strip, scan, and uppercase the keywords. -/
def tokenize (query : String) : List String :=
  (scanTok (pyStrip query).data).map
    (fun t => if pyUpper t ∈ KEYWORDS then pyUpper t else t)

/-! ## Condition parsing and alias resolution (`parser/parser.py`) -/

abbrev AliasMap := List (String × String)

/-- One step of `re.sub(rf'\b{alias}\.', f"{table}.", s)`: scan the
characters, and at every position preceded by a word boundary where
`alias.` occurs, emit `table.` instead (the replacement is not rescanned;
aliases are identifier tokens, so interpolating them into the regex adds
no metacharacters).  Every step consumes at least one character, so the
fuel `length + 1` used by `subWB` below can never run out. -/
def subWBgoF (ali table : String) : Nat → Option Char → List Char →
    List Char
  | 0, _, l => l
  | _ + 1, _, [] => []
  | n + 1, prev, c :: rest =>
    let firstc := (ali.data ++ ['.']).headD '.'
    let boundary :=
      match prev with
      | none => isWordChar firstc
      | some p => (isWordChar p) != (isWordChar firstc)
    if boundary && listHasPre (ali.data ++ ['.']) (c :: rest) then
      (table.data ++ ['.']) ++
        subWBgoF ali table n (some '.')
          ((c :: rest).drop (ali.data ++ ['.']).length)
    else c :: subWBgoF ali table n (some c) rest

def subWB (ali table s : String) : String :=
  String.mk (subWBgoF ali table (s.data.length + 1) none s.data)

/-- The alias-resolution loop `for alias, table in alias_map.items():
s = re.sub(...)` (insertion order). -/
def resolveCond (am : AliasMap) (s : String) : String :=
  am.foldl (fun acc p => subWB p.1 p.2 acc) s

/-- `parser.parse_condition`: split at the first top-level `AND` token,
else at the first `OR`, else build a leaf from the space-joined,
alias-resolved tokens.  When a split side parses to `None` the function
falls through to a leaf over the whole resolved string.  An empty token
list gives `None`.  Each recursive call strictly shortens the token list,
so the fuel `length + 1` used by `parse_condition` below can never run
out. -/
def parseCondF : Nat → List String → AliasMap → Option Val
  | 0, _, _ => none
  | _ + 1, [], _ => none
  | n + 1, t0 :: ts, am =>
    let tokens := t0 :: ts
    let condition_str := resolveCond am (pyIntercalate " " tokens)
    if "AND" ∈ tokens then
      let i := tokens.indexOf "AND"
      match parseCondF n (tokens.take i) am,
          parseCondF n (tokens.drop (i + 1)) am with
      | some l, some r => some (.condOp "AND" l r)
      | _, _ => some (.leaf condition_str)
    else if "OR" ∈ tokens then
      let i := tokens.indexOf "OR"
      match parseCondF n (tokens.take i) am,
          parseCondF n (tokens.drop (i + 1)) am with
      | some l, some r => some (.condOp "OR" l r)
      | _, _ => some (.leaf condition_str)
    else some (.leaf condition_str)

def parse_condition (tokens : List String) (am : AliasMap) : Option Val :=
  parseCondF (tokens.length + 1) tokens am

/-! ## `parser.parse_query` -/

/-- The SELECT-list accumulation loop: group tokens between commas,
joining multi-token groups with `"."`. -/
def groupAttrs (tokens : List String) (current : List String) : List String :=
  match tokens with
  | [] =>
    match current with
    | [] => []
    | [x] => [x]
    | xs => [pyIntercalate "." xs]
  | t :: rest =>
    if t = "," then
      match current with
      | [] => groupAttrs rest []
      | [x] => x :: groupAttrs rest []
      | xs => pyIntercalate "." xs :: groupAttrs rest []
    else groupAttrs rest (current ++ [t])

/-- The anchored substitution `re.sub(rf'^{alias}\.', f'{table}.', attr)`
folded over the alias map (which the source consults before it has been
populated). -/
def resolveAttr (am : AliasMap) (attr : String) : String :=
  am.foldl
    (fun acc p =>
      if pyStartsWith acc (p.1 ++ ".") then
        p.2 ++ "." ++ pyDrop acc (p.1.data.length + 1)
      else acc)
    attr

/-- The no-JOIN FROM loop: skip commas; a following token that is not a
comma and not a keyword becomes the alias of the preceding table name. -/
def parseTables : List String → List (String × Option String)
  | [] => []
  | t :: rest =>
    if t = "," then parseTables rest
    else
      match rest with
      | next :: rest2 =>
        if next ≠ "," ∧ pyUpper next ∉ KEYWORDS then
          (t, some next) :: parseTables rest2
        else (t, none) :: parseTables (next :: rest2)
      | [] => [(t, none)]

/-- `alias_map[alias] = table_name` over the parsed table list (dict
update keeps the position of an existing key). -/
def assocUpdateS (k v : String) : AliasMap → AliasMap
  | [] => [(k, v)]
  | (k', v') :: rest =>
    if k' = k then (k, v) :: rest else (k', v') :: assocUpdateS k v rest

def aliasMapOf (tabs : List (String × Option String)) : AliasMap :=
  tabs.foldl
    (fun m p => match p.2 with
      | some a => assocUpdateS a p.1 m
      | none => m)
    []

/-- Positions of the `JOIN` tokens inside the FROM token list. -/
def joinPositions (from_tokens : List String) : List Nat :=
  (from_tokens.enum.filter (fun p => p.2 = "JOIN")).map (·.1)

/-- The `[join_pos, next_join_pos)` slices of the FROM token list. -/
def segmentsOf (from_tokens : List String) (jps : List Nat) :
    List (List String) :=
  (jps.zip (jps.drop 1 ++ [from_tokens.length])).map
    (fun p => (from_tokens.drop p.1).take (p.2 - p.1))

/-- One iteration of the JOIN-building loop: a segment shaped
`JOIN table [alias] ON cond…` wraps the accumulated tree into a JOIN node;
any other segment is skipped.  `table_tokens[0]` on an empty slice raises
`IndexError` in Python.  The join alias and the first table's alias are
computed by the source but never stored anywhere, so the alias map stays
empty on this path. -/
def processJoin (am : AliasMap) (cur : QueryTree) (seg : List String) :
    Except String QueryTree :=
  if 2 ≤ seg.length ∧ "ON" ∈ seg then
    let oi := seg.indexOf "ON"
    match (seg.drop 1).take (oi - 1) with
    | [] => .error "IndexError"
    | tn :: _ =>
      let jc := (parse_condition (seg.drop (oi + 1)) am).getD .vnone
      .ok (.node "JOIN" jc [cur, .node "TABLE" (.str tn) [] none] none)
  else .ok cur

def foldJoins (am : AliasMap) : QueryTree → List (List String) →
    Except String QueryTree
  | cur, [] => .ok cur
  | cur, seg :: rest =>
    match processJoin am cur seg with
    | .error e => .error e
    | .ok cur2 => foldJoins am cur2 rest

/-- The FROM-clause processing of `parse_query`: without any `JOIN` token
the comma-separated table loop builds TABLE nodes and the alias map; with
`JOIN` tokens a left-deep JOIN chain is built (and the alias map is never
populated).  An empty slice before the first `JOIN` leaves the node list
empty, exactly as the source's `table_nodes = []` initialisation. -/
def fromNodes (from_tokens : List String) :
    Except String (List QueryTree × AliasMap) :=
  let jps := joinPositions from_tokens
  if jps = [] then
    let tabs := parseTables from_tokens
    .ok (tabs.map (fun p => .node "TABLE" (.str p.1) [] none),
      aliasMapOf tabs)
  else
    match from_tokens.take (jps.headD 0) with
    | [] => .ok ([], [])
    | tn :: _ =>
      match foldJoins [] (.node "TABLE" (.str tn) [] none)
          (segmentsOf from_tokens jps) with
      | .error e => .error e
      | .ok chain => .ok ([chain], [])

/-- Build the PROJECT root, wiring the table nodes under a SELECT node
when a WHERE clause is present (`parse_condition` of the WHERE tokens with
the alias map; `None` is stored as the SELECT's value when the clause is
empty). -/
def mkRoot (query : String) (attrs : List String)
    (table_nodes : List QueryTree) (am : AliasMap) (tokens : List String)
    (where_idx : Nat) : ParsedQuery :=
  if where_idx < tokens.length then
    let wc := (parse_condition (tokens.drop (where_idx + 1)) am).getD .vnone
    ⟨query, .node "PROJECT" (.strList attrs)
      [.node "SELECT" wc table_nodes none] none⟩
  else
    ⟨query, .node "PROJECT" (.strList attrs) table_nodes none⟩

/-- `parser.parse_query`.  Note the source resolves the SELECT list
against `alias_map` while it is still empty, and never populates
`alias_map` at all on the JOIN path, so only WHERE conditions of
JOIN-free queries are actually alias-resolved. -/
def parse_query (query : String) : Except String ParsedQuery :=
  let tokens := tokenize query
  if "SELECT" ∉ tokens ∨ "FROM" ∉ tokens then .error "Invalid query syntax"
  else
    let select_idx := tokens.indexOf "SELECT"
    let from_idx := tokens.indexOf "FROM"
    let where_idx :=
      if "WHERE" ∈ tokens then tokens.indexOf "WHERE" else tokens.length
    let select_tokens :=
      (tokens.drop (select_idx + 1)).take (from_idx - (select_idx + 1))
    let select_attrs :=
      (groupAttrs select_tokens []).map (resolveAttr ([] : AliasMap))
    let from_tokens :=
      (tokens.drop (from_idx + 1)).take (where_idx - (from_idx + 1))
    match fromNodes from_tokens with
    | .error e => .error e
    | .ok (table_nodes, am) =>
      .ok (mkRoot query select_attrs table_nodes am tokens where_idx)

/-! ## Validator (`parser/validator.py`) and engine
(`optimizer/optimization_engine.py`) -/

mutual
/-- The TABLE-node payloads of a tree, in preorder (the multiset of
relation names of spec property P6). -/
def tableVals : QueryTree → List Val
  | .node ty v cs _ =>
    (if ty = "TABLE" then [v] else []) ++ tableValsList cs

def tableValsList : List QueryTree → List Val
  | [] => []
  | c :: cr => tableVals c ++ tableValsList cr
end

/-- `Modelled from the spec:` the `tables` attribute of the missing
`ParsedQuery` class (used by the validator and asserted on in the tests:
for scenario S1 it contains exactly `employees`): the relation names
appearing at the TABLE nodes of the tree. -/
def ParsedQuery.tables (pq : ParsedQuery) : List String :=
  (tableVals pq.query_tree).filterMap
    (fun v => match v with | .str s => some s | _ => none)

/-- `QueryValidator._validate_tree_structure`: a node whose `type` is
missing or falsy (the empty string) is an error; children are checked
recursively.  The `id()`-based cycle check can never fire on pure
values. -/
def validate_tree_structure : QueryTree → List String
  | .node ty _ cs _ =>
    (if ty = "" then ["Node missing type"] else []) ++
      (cs.attach.map fun c => validate_tree_structure c.1).flatten
termination_by t => QueryTree.tsize t
decreasing_by
  all_goals exact QueryTree.tsize_lt_of_mem c.2 _ _ _

/-- `QueryValidator.validate_parsed_query`: the tree is always present in
the model (the `Missing query tree` error cannot fire), then the table
check and the structural walk. -/
def validate_parsed_query (pq : ParsedQuery) : Bool × List String :=
  let errors :=
    (if pq.tables = [] then ["No tables found in query"] else []) ++
      validate_tree_structure pq.query_tree
  (errors.length = 0, errors)

/-- `OptimizationEngine.parse_query`: parse, validate, raise
`ValueError(f"Query validation failed: {errors}")` when invalid (the
Python list formatting of the message is modelled as a `"; "`-join). -/
def engine_parse_query (q : String) : Except String ParsedQuery :=
  match parse_query q with
  | .error e => .error e
  | .ok pq =>
    let v := validate_parsed_query pq
    if v.1 then .ok pq
    else .error ("Query validation failed: " ++ pyIntercalate "; " v.2)

/-! ## Genetic search (`plan_optimizer.py`): chromosome operations

Randomness is modelled as nondeterminism: each operation takes its random
draws as explicit arguments, and the reachability predicate `GAChrom`
below constrains the draws exactly to the ranges the corresponding
`random.*` calls guarantee. -/

/-- `list(range(8))`, the rule identifiers. -/
def all_rules : List Nat := List.range 8

def removeDupsGo (seen : List Nat) : List Nat → List Nat
  | [] => []
  | x :: xs =>
    if x ∈ seen then removeDupsGo seen xs
    else x :: removeDupsGo (x :: seen) xs

/-- `PlanOptimizer._remove_duplicates_preserve_order`. -/
def remove_duplicates_preserve_order (seq : List Nat) : List Nat :=
  removeDupsGo [] seq

/-- `PlanOptimizer._crossover`, with the crossover point
(`random.randint(1, min_len - 1)`) passed in. -/
def crossover (cp : Nat) (s1 s2 : List Nat) : List Nat × List Nat :=
  if s1.length = 0 ∨ s2.length = 0 then (s1, s2)
  else if min s1.length s2.length ≤ 1 then (s1, s2)
  else
    (remove_duplicates_preserve_order (s1.take cp ++ s2.drop cp),
     remove_duplicates_preserve_order (s2.take cp ++ s1.drop cp))

/-- `PlanOptimizer._mutate`, with the draws passed in: `r0` for the
empty-sequence `randint(0, 7)`, `mtype` for `randint(0, 2)`, `i`/`j` for
`random.sample(range(len), 2)`, `d` for the deletion index, `cIdx` for
the `random.choice` over the rules not yet present, and `pos` for the
insertion position (`random.randint(0, len)`; `List.insertIdx` and Python
`insert` agree on positions up to the length, which is all the draw
allows). -/
def mutate (r0 mtype i j d cIdx pos : Nat) (s : List Nat) : List Nat :=
  if s.length = 0 then [r0]
  else if mtype = 0 ∧ 2 ≤ s.length then
    (s.set i (s.getD j 0)).set j (s.getD i 0)
  else if mtype = 1 ∧ 1 < s.length then
    s.eraseIdx d
  else if mtype = 2 ∧ s.length < 8 then
    match (List.range 8).filter (fun r => decide (r ∉ s)) with
    | [] => s
    | a :: arest => s.insertIdx pos ((a :: arest).getD cIdx 0)
  else s

/-- The chromosomes that can ever be present in a population of
`optimize_tree_with_genetic_algorithm`: the initial random sequences
(`random.sample(all_rules, randint(4, 8))`, which always yields a
duplicate-free subsequence of the sampled population of the requested
length), and everything reachable from population members through
crossover (either child) and mutation; the elite chromosome and
tournament winners are population members themselves, so they introduce
nothing new. -/
inductive GAChrom : List Nat → Prop
  | init (s : List Nat) (hnd : s.Nodup) (hsub : ∀ x ∈ s, x ∈ all_rules)
      (h4 : 4 ≤ s.length) (h8 : s.length ≤ 8) : GAChrom s
  | crossL (cp : Nat) (s1 s2 : List Nat) (h1 : GAChrom s1) (h2 : GAChrom s2)
      (hcp1 : 1 ≤ cp) : GAChrom (crossover cp s1 s2).1
  | crossR (cp : Nat) (s1 s2 : List Nat) (h1 : GAChrom s1) (h2 : GAChrom s2)
      (hcp1 : 1 ≤ cp) : GAChrom (crossover cp s1 s2).2
  | mutStep (r0 mtype i j d cIdx pos : Nat) (s : List Nat) (h : GAChrom s)
      (hr0 : r0 < 8) (hm : mtype < 3)
      (hij : 2 ≤ s.length → i < s.length ∧ j < s.length ∧ i ≠ j)
      (hd : 1 < s.length → d < s.length)
      (hc : cIdx < ((List.range 8).filter (fun r => decide (r ∉ s))).length
        ∨ (List.range 8).filter (fun r => decide (r ∉ s)) = [])
      (hpos : pos ≤ s.length) :
      GAChrom (mutate r0 mtype i j d cIdx pos s)

/-! ## Static predicates on trees and fixpoint lemmas -/

mutual
/-- No SELECT node whose first child is again a SELECT (exactly the match
sites of `combine_selections`). -/
def noSelSel : QueryTree → Bool
  | .node ty _ cs _ =>
    (match cs with
      | (.node cty _ _ _) :: _ => !(decide (ty = "SELECT" ∧ cty = "SELECT"))
      | [] => true)
    && noSelSelList cs

def noSelSelList : List QueryTree → Bool
  | [] => true
  | c :: cr => noSelSel c && noSelSelList cr
end

mutual
/-- No node of the tree is a SELECT at all. -/
def noSelectType : QueryTree → Bool
  | .node ty _ cs _ => !(decide (ty = "SELECT")) && noSelectTypeList cs

def noSelectTypeList : List QueryTree → Bool
  | [] => true
  | c :: cr => noSelectType c && noSelectTypeList cr
end

theorem noSelSelList_mem {cs : List QueryTree}
    (h : noSelSelList cs = true) : ∀ c ∈ cs, noSelSel c = true := by
  induction cs with
  | nil => intro c hc; cases hc
  | cons x xs ih =>
    simp only [noSelSelList, Bool.and_eq_true] at h
    intro c hc
    rcases List.mem_cons.mp hc with rfl | hc
    · exact h.1
    · exact ih h.2 c hc

theorem combineList_fix {cs : List QueryTree}
    (h : ∀ c ∈ cs, combine_selections c = c) : combineList cs = cs := by
  induction cs with
  | nil => rfl
  | cons x xs ih =>
    simp only [combineList]
    rw [h x (List.mem_cons_self x xs),
      ih (fun c hc => h c (List.mem_cons_of_mem x hc))]

/-- On trees with no SELECT-over-SELECT, `combine_selections` is the
identity. -/
theorem combine_fix : ∀ t, noSelSel t = true → combine_selections t = t := by
  refine QueryTree.myInduction _ ?_
  intro ty v cs a ih h
  simp only [noSelSel, Bool.and_eq_true] at h
  have hchild : ∀ c ∈ cs, combine_selections c = c :=
    fun c hc => ih c hc (noSelSelList_mem h.2 c hc)
  cases cs with
  | nil => simp [combine_selections]
  | cons c cr =>
    cases c with
    | node cty cv ccs ca =>
      have hne : ¬ (ty = "SELECT" ∧ cty = "SELECT") := by
        have := h.1
        simp only [Bool.not_eq_true'] at this
        exact of_decide_eq_false this
      simp only [combine_selections]
      rw [if_neg hne, combineList_fix hchild]

theorem noSelectTypeList_mem {cs : List QueryTree}
    (h : noSelectTypeList cs = true) : ∀ c ∈ cs, noSelectType c = true := by
  induction cs with
  | nil => intro c hc; cases hc
  | cons x xs ih =>
    simp only [noSelectTypeList, Bool.and_eq_true] at h
    intro c hc
    rcases List.mem_cons.mp hc with rfl | hc
    · exact h.1
    · exact ih h.2 c hc

theorem spineSel_of_noSelect : ∀ t, noSelectType t = true → spineSel t = 0 := by
  refine QueryTree.myInduction _ ?_
  intro ty v cs a ih h
  simp only [noSelectType, Bool.and_eq_true] at h
  have hty : ¬ ty = "SELECT" := by
    have := h.1
    simp only [Bool.not_eq_true'] at this
    exact of_decide_eq_false this
  have hlist : spineSelList cs = 0 :=
    spineSelList_eq_zero cs
      (fun c hc => ih c hc (noSelectTypeList_mem h.2 c hc))
  simp only [spineSel, hlist]
  rw [if_neg (fun hcon => hty hcon.1)]

theorem noSelSel_of_noSelect : ∀ t, noSelectType t = true →
    noSelSel t = true := by
  refine QueryTree.myInduction _ ?_
  intro ty v cs a ih h
  simp only [noSelectType, Bool.and_eq_true] at h
  have hlist : noSelSelList cs = true := by
    have hm := noSelectTypeList_mem h.2
    clear h
    induction cs with
    | nil => rfl
    | cons x xs ihl =>
      simp only [noSelSelList, Bool.and_eq_true]
      exact ⟨ih x (List.mem_cons_self x xs) (hm x (List.mem_cons_self x xs)),
        ihl (fun c hc => ih c (List.mem_cons_of_mem x hc))
          (fun c hc => hm c (List.mem_cons_of_mem x hc))⟩
  simp only [noSelSel, Bool.and_eq_true]
  refine ⟨?_, hlist⟩
  cases cs with
  | nil => rfl
  | cons c cr =>
    cases c with
    | node cty cv ccs ca =>
      have hty : ¬ ty = "SELECT" := by
        have := h.1
        simp only [Bool.not_eq_true'] at this
        exact of_decide_eq_false this
      simp only [Bool.not_eq_true']
      exact decide_eq_false (fun hcon => hty hcon.1)

/-- A parsed condition object: `ConditionLeaf` or `ConditionOperator` of
parsed conditions (everything `parse_condition` can return). -/
inductive PureCond : Val → Prop
  | leaf (c : String) : PureCond (.leaf c)
  | condOp (op : String) (l r : Val) :
      PureCond l → PureCond r → PureCond (.condOp op l r)

theorem parseCondF_pure :
    ∀ n (ts : List String) (am : AliasMap) (v : Val),
      parseCondF n ts am = some v → PureCond v := by
  intro n
  induction n with
  | zero => intro ts am v h; simp [parseCondF] at h
  | succ n ih =>
    intro ts am v h
    cases ts with
    | nil => simp [parseCondF] at h
    | cons t0 tr =>
      simp only [parseCondF] at h
      by_cases hand : "AND" ∈ t0 :: tr
      · rw [if_pos hand] at h
        match h1 : parseCondF n ((t0 :: tr).take ((t0 :: tr).indexOf "AND")) am,
            h2 : parseCondF n ((t0 :: tr).drop ((t0 :: tr).indexOf "AND" + 1)) am with
        | some l, some r =>
          rw [h1, h2] at h
          simp at h
          subst h
          exact PureCond.condOp _ _ _ (ih _ _ _ h1) (ih _ _ _ h2)
        | some l, none =>
          rw [h1, h2] at h
          simp at h
          subst h
          exact PureCond.leaf _
        | none, r2 =>
          rw [h1, h2] at h
          simp at h
          subst h
          exact PureCond.leaf _
      · rw [if_neg hand] at h
        by_cases hor : "OR" ∈ t0 :: tr
        · rw [if_pos hor] at h
          match h1 : parseCondF n ((t0 :: tr).take ((t0 :: tr).indexOf "OR")) am,
              h2 : parseCondF n ((t0 :: tr).drop ((t0 :: tr).indexOf "OR" + 1)) am with
          | some l, some r =>
            rw [h1, h2] at h
            simp at h
            subst h
            exact PureCond.condOp _ _ _ (ih _ _ _ h1) (ih _ _ _ h2)
          | some l, none =>
            rw [h1, h2] at h
            simp at h
            subst h
            exact PureCond.leaf _
          | none, r2 =>
            rw [h1, h2] at h
            simp at h
            subst h
            exact PureCond.leaf _
        · rw [if_neg hor] at h
          simp at h
          subst h
          exact PureCond.leaf _

theorem parse_condition_pure {ts : List String} {am : AliasMap} {v : Val}
    (h : parse_condition ts am = some v) : PureCond v :=
  parseCondF_pure _ _ _ _ h

/-! ## Cost lemmas -/

theorem cost_select (st : Statistics) (v : Val) (c : QueryTree)
    (cr : List QueryTree) (a : Option String) :
    calculate_tree_cost st (.node "SELECT" v (c :: cr) a)
      = calculate_tree_cost st c * (estimate_selectivity v : ℝ) := by
  cases cr with
  | nil => rfl
  | cons c2 rest => rfl

theorem cost_project (st : Statistics) (v : Val) (c : QueryTree)
    (cr : List QueryTree) (a : Option String) :
    calculate_tree_cost st (.node "PROJECT" v (c :: cr) a)
      = calculate_tree_cost st c + calculate_tree_cost st c * (1/10 : ℝ) := by
  cases cr with
  | nil => rfl
  | cons c2 rest => rfl

theorem cost_buildChain (st : Statistics) (atoms : List Val) (x : QueryTree) :
    calculate_tree_cost st (buildChain atoms x)
      = calculate_tree_cost st x *
        (((atoms.map estimate_selectivity).prod : ℚ) : ℝ) := by
  induction atoms with
  | nil =>
    show calculate_tree_cost st x = _
    simp
  | cons a as ih =>
    show calculate_tree_cost st (.node "SELECT" a [buildChain as x] none) = _
    rw [cost_select, ih]
    simp only [List.map_cons, List.prod_cons]
    push_cast
    ring

theorem pure_sel_eq_condSel {v : Val} (h : PureCond v) :
    estimate_selectivity v = estimate_condition_selectivity v := by
  cases h <;> rfl

theorem pure_extract_pure {v : Val} (h : PureCond v) :
    ∀ a ∈ extract_and_conditions v, PureCond a := by
  induction h with
  | leaf c =>
    intro a ha
    simp [extract_and_conditions] at ha
    subst ha
    exact PureCond.leaf c
  | condOp op l r hl hr ihl ihr =>
    intro a ha
    by_cases hop : op = "AND"
    · simp [extract_and_conditions, hop] at ha
      rcases ha with ha | ha
      · exact ihl a ha
      · exact ihr a ha
    · simp [extract_and_conditions, hop] at ha
      subst ha
      exact PureCond.condOp op l r hl hr

theorem pure_condSel_prod {v : Val} (h : PureCond v) :
    estimate_condition_selectivity v
      = ((extract_and_conditions v).map estimate_condition_selectivity).prod := by
  induction h with
  | leaf c => simp [extract_and_conditions]
  | condOp op l r hl hr ihl ihr =>
    by_cases hop : op = "AND"
    · subst hop
      rw [show estimate_condition_selectivity (.condOp "AND" l r)
          = estimate_condition_selectivity l * estimate_condition_selectivity r
          from rfl,
        ihl, ihr,
        show extract_and_conditions (.condOp "AND" l r)
          = extract_and_conditions l ++ extract_and_conditions r from rfl,
        List.map_append, List.prod_append]
    · simp [extract_and_conditions, hop]

/-! ## Shape of parser outputs -/

theorem noSelectTypeList_of {cs : List QueryTree}
    (h : ∀ c ∈ cs, noSelectType c = true) : noSelectTypeList cs = true := by
  induction cs with
  | nil => rfl
  | cons x xs ih =>
    simp only [noSelectTypeList, Bool.and_eq_true]
    exact ⟨h x (List.mem_cons_self x xs),
      ih (fun c hc => h c (List.mem_cons_of_mem x hc))⟩

theorem noSelSelList_of {cs : List QueryTree}
    (h : ∀ c ∈ cs, noSelSel c = true) : noSelSelList cs = true := by
  induction cs with
  | nil => rfl
  | cons x xs ih =>
    simp only [noSelSelList, Bool.and_eq_true]
    exact ⟨h x (List.mem_cons_self x xs),
      ih (fun c hc => h c (List.mem_cons_of_mem x hc))⟩

theorem processJoin_noSelect {am : AliasMap} {cur : QueryTree}
    {seg : List String} {out : QueryTree}
    (hc : noSelectType cur = true) (h : processJoin am cur seg = .ok out) :
    noSelectType out = true := by
  unfold processJoin at h
  simp only [] at h
  split at h
  · split at h
    · simp at h
    · simp only [Except.ok.injEq] at h
      subst h
      simp [noSelectType, noSelectTypeList, hc]
  · simp only [Except.ok.injEq] at h
    subst h
    exact hc

theorem foldJoins_noSelect :
    ∀ (segs : List (List String)) (am : AliasMap) (cur out : QueryTree),
      noSelectType cur = true → foldJoins am cur segs = .ok out →
      noSelectType out = true := by
  intro segs
  induction segs with
  | nil =>
    intro am cur out hc h
    simp only [foldJoins, Except.ok.injEq] at h
    subst h
    exact hc
  | cons seg rest ih =>
    intro am cur out hc h
    simp only [foldJoins] at h
    match hp : processJoin am cur seg with
    | .error e => rw [hp] at h; simp at h
    | .ok cur2 =>
      rw [hp] at h
      exact ih am cur2 out (processJoin_noSelect hc hp) h

theorem mkRoot_shape (query : String) (attrs : List String)
    (tns : List QueryTree) (am : AliasMap) (tokens : List String)
    (widx : Nat) (htns : ∀ t ∈ tns, noSelectType t = true) :
    ∃ cs, (mkRoot query attrs tns am tokens widx).query_tree
        = .node "PROJECT" (.strList attrs) cs none ∧
      ((∀ t ∈ cs, noSelectType t = true) ∨
        ∃ wc tns2, cs = [QueryTree.node "SELECT" wc tns2 none] ∧
          (∀ t ∈ tns2, noSelectType t = true) ∧
          (wc = .vnone ∨ PureCond wc)) := by
  unfold mkRoot
  split
  · refine ⟨_, rfl, Or.inr ⟨_, tns, rfl, htns, ?_⟩⟩
    cases hpc : parse_condition (tokens.drop (widx + 1)) am with
    | none => left; rfl
    | some v =>
      right
      exact parse_condition_pure hpc
  · exact ⟨tns, rfl, Or.inl htns⟩

theorem fromNodes_noSelect {ft : List String} {tns : List QueryTree}
    {am : AliasMap} (h : fromNodes ft = .ok (tns, am)) :
    ∀ t ∈ tns, noSelectType t = true := by
  unfold fromNodes at h
  simp only [] at h
  split at h
  · simp only [Except.ok.injEq, Prod.mk.injEq] at h
    intro t ht
    rw [← h.1] at ht
    rcases List.mem_map.mp ht with ⟨p, _, rfl⟩
    rfl
  · split at h
    · simp only [Except.ok.injEq, Prod.mk.injEq] at h
      intro t ht
      rw [← h.1] at ht
      cases ht
    · split at h
      · simp at h
      · rename_i chain hchain
        simp only [Except.ok.injEq, Prod.mk.injEq] at h
        intro t ht
        rw [← h.1] at ht
        rcases List.mem_singleton.mp ht with rfl
        exact foldJoins_noSelect _ _ _ _ (by rfl) hchain

/-- Every successfully parsed query yields a PROJECT root over either
SELECT-free table/join nodes, or a single SELECT (holding `None` or a
parsed condition) over SELECT-free table/join nodes. -/
theorem parse_query_shape {q : String} {pq : ParsedQuery}
    (h : parse_query q = .ok pq) :
    ∃ attrs cs,
      pq.query_tree = .node "PROJECT" (.strList attrs) cs none ∧
      ((∀ t ∈ cs, noSelectType t = true) ∨
        ∃ wc tns, cs = [QueryTree.node "SELECT" wc tns none] ∧
          (∀ t ∈ tns, noSelectType t = true) ∧
          (wc = .vnone ∨ PureCond wc)) := by
  unfold parse_query at h
  simp only [] at h
  split at h
  · simp at h
  · split at h
    · simp at h
    · rename_i tns_am heq
      simp only [Except.ok.injEq] at h
      subst h
      exact ⟨_, mkRoot_shape _ _ _ _ _ _ (fromNodes_noSelect heq)⟩


/-! ## Cost preservation of the Conservative strategy -/

theorem push_fix_noSelect {t : QueryTree} (h : noSelectType t = true) :
    push_down_selection t = t :=
  push_of_spineSel_zero t (spineSel_of_noSelect t h)

theorem sel_factor {wc : Val} (hpure : PureCond wc) {a1 a2 : Val}
    {arest : List Val}
    (hatoms : extract_and_conditions wc = a1 :: a2 :: arest) :
    estimate_selectivity wc
      = estimate_selectivity a1 * estimate_selectivity a2 *
        ((arest.map estimate_selectivity).prod) := by
  have hmem : ∀ a ∈ extract_and_conditions wc,
      estimate_selectivity a = estimate_condition_selectivity a :=
    fun a ha => pure_sel_eq_condSel (pure_extract_pure hpure a ha)
  rw [pure_sel_eq_condSel hpure, pure_condSel_prod hpure, hatoms]
  simp only [List.map_cons, List.prod_cons]
  rw [← hmem a1 (by rw [hatoms]; exact List.mem_cons_self _ _),
    ← hmem a2 (by rw [hatoms]; simp)]
  have harest : arest.map estimate_condition_selectivity
      = arest.map estimate_selectivity := by
    refine List.map_congr_left ?_
    intro a ha
    refine (hmem a ?_).symm
    rw [hatoms]
    simp [ha]
  rw [harest]
  ring

theorem conservative_plan_cost {q : String} {pq : ParsedQuery}
    (h : parse_query q = .ok pq) :
    calculate_tree_cost defaultStatistics
        (generate_conservative_plan pq.query_tree)
      = calculate_tree_cost defaultStatistics pq.query_tree := by
  obtain ⟨attrs, cs, hroot, hdisj⟩ := parse_query_shape h
  rw [hroot]
  show calculate_tree_cost defaultStatistics
      (combine_selections (push_down_selection
        (.node "PROJECT" (.strList attrs) cs none))) = _
  rcases hdisj with hns | ⟨wc, tns, rfl, htns, hwc⟩
  · have hT : noSelectType
        (QueryTree.node "PROJECT" (.strList attrs) cs none) = true := by
      simp only [noSelectType, Bool.and_eq_true]
      exact ⟨by decide, noSelectTypeList_of hns⟩
    rw [push_fix_noSelect hT, combine_fix _ (noSelSel_of_noSelect _ hT)]
  · cases tns with
    | nil =>
      have hsp : spineSel (QueryTree.node "PROJECT" (.strList attrs)
          [QueryTree.node "SELECT" wc [] none] none) = 0 := by
        simp [spineSel, spineSelList]
      have hnss : noSelSel (QueryTree.node "PROJECT" (.strList attrs)
          [QueryTree.node "SELECT" wc [] none] none) = true := by
        simp [noSelSel, noSelSelList]
      rw [push_of_spineSel_zero _ hsp, combine_fix _ hnss]
    | cons tn0 tnr =>
      have hspTns : ∀ t ∈ tn0 :: tnr, spineSel t = 0 :=
        fun t ht => spineSel_of_noSelect t (htns t ht)
      have hlist := spineSelList_eq_zero _ hspTns
      by_cases hsv : spineV wc = 0
      · have hsp : spineSel (QueryTree.node "PROJECT" (.strList attrs)
            [QueryTree.node "SELECT" wc (tn0 :: tnr) none] none) = 0 := by
          simp only [spineSel, spineSelList]
          rw [if_neg (by simp), if_pos (by simp), hsv]
          simp only [spineSelList] at hlist
          omega
        have hnss : noSelSel (QueryTree.node "PROJECT" (.strList attrs)
            [QueryTree.node "SELECT" wc (tn0 :: tnr) none] none) = true := by
          have h0 := htns tn0 (List.mem_cons_self _ _)
          cases tn0 with
          | node cty cv ccs ca =>
            simp only [noSelectType, Bool.and_eq_true] at h0
            have hcty : ¬ cty = "SELECT" := by
              have := h0.1
              simp only [Bool.not_eq_true'] at this
              exact of_decide_eq_false this
            have hσ : noSelSel (QueryTree.node "SELECT" wc
                (QueryTree.node cty cv ccs ca :: tnr) none) = true := by
              simp only [noSelSel, Bool.and_eq_true]
              constructor
              · simp only [Bool.not_eq_true']
                exact decide_eq_false (fun hcon => hcty hcon.2)
              · exact noSelSelList_of
                  (fun t ht => noSelSel_of_noSelect t (htns t ht))
            simp only [noSelSel, Bool.and_eq_true]
            refine ⟨by decide, ?_⟩
            simp only [noSelSelList, Bool.and_eq_true]
            exact ⟨hσ, trivial⟩
        rw [push_of_spineSel_zero _ hsp, combine_fix _ hnss]
      · have hk : 2 ≤ (extract_and_conditions wc).length := by
          rw [length_extract]
          omega
        have hpure : PureCond wc := by
          rcases hwc with rfl | hp
          · exact absurd rfl hsv
          · exact hp
        have htn0fix : push_down_selection tn0 = tn0 :=
          push_of_spineSel_zero tn0 (hspTns tn0 (List.mem_cons_self _ _))
        have hpush : push_down_selection (QueryTree.node "PROJECT"
              (.strList attrs) [QueryTree.node "SELECT" wc (tn0 :: tnr) none]
              none)
            = QueryTree.node "PROJECT" (.strList attrs)
                [buildChain (extract_and_conditions wc)
                  (push_down_selection tn0)] none := by
          rw [push_nonselect (by decide)]
          simp only [List.map_cons, List.map_nil]
          rw [push_select_chain hk]
        obtain ⟨a1, a2, arest, hatoms⟩ : ∃ a1 a2 arest,
            extract_and_conditions wc = a1 :: a2 :: arest := by
          match hax : extract_and_conditions wc with
          | [] => rw [hax] at hk; simp at hk
          | [x] => rw [hax] at hk; simp at hk
          | x :: y :: zs => exact ⟨x, y, zs, rfl⟩
        rw [hpush, htn0fix, hatoms]
        have hcomb : combine_selections (QueryTree.node "PROJECT"
              (.strList attrs) [buildChain (a1 :: a2 :: arest) tn0] none)
            = QueryTree.node "PROJECT" (.strList attrs)
                [QueryTree.node "SELECT" (.condOp "AND" a1 a2)
                  [buildChain arest tn0] none] none := by
          show combine_selections (QueryTree.node "PROJECT" (.strList attrs)
              [QueryTree.node "SELECT" a1
                [QueryTree.node "SELECT" a2 [buildChain arest tn0] none]
                none] none) = _
          simp only [combine_selections, combineList]
          rw [if_neg (by simp), if_pos (by simp)]
        rw [hcomb]
        rw [cost_project, cost_project, cost_select, cost_select,
          cost_buildChain]
        have hq := sel_factor hpure hatoms
        have ha1 : PureCond a1 :=
          pure_extract_pure hpure a1
            (by rw [hatoms]; exact List.mem_cons_self _ _)
        have ha2 : PureCond a2 :=
          pure_extract_pure hpure a2 (by rw [hatoms]; simp)
        have hfactq : estimate_selectivity wc
            = estimate_selectivity (.condOp "AND" a1 a2) *
              (arest.map estimate_selectivity).prod := by
          rw [show estimate_selectivity (.condOp "AND" a1 a2)
              = estimate_condition_selectivity a1 *
                estimate_condition_selectivity a2 from rfl,
            ← pure_sel_eq_condSel ha1, ← pure_sel_eq_condSel ha2, hq]
        rw [hfactq]
        push_cast
        ring

/-! ## The minimum over the candidate plans -/

theorem select_best_le :
    ∀ (xs : List (QueryTree × ℝ)) (best : QueryTree × ℝ),
      (select_best xs best).2 ≤ best.2 ∧
        ∀ x ∈ xs, (select_best xs best).2 ≤ x.2 := by
  intro xs
  induction xs with
  | nil =>
    intro best
    exact ⟨le_rfl, fun x hx => absurd hx (List.not_mem_nil x)⟩
  | cons y ys ih =>
    intro best
    have hstep : select_best (y :: ys) best
        = select_best ys (if y.2 < best.2 then y else best) := rfl
    by_cases hyb : y.2 < best.2
    · rw [hstep, if_pos hyb]
      refine ⟨(ih y).1.trans (le_of_lt hyb), ?_⟩
      intro x hx
      rcases List.mem_cons.mp hx with rfl | hx
      · exact (ih x).1
      · exact (ih y).2 x hx
    · rw [hstep, if_neg hyb]
      refine ⟨(ih best).1, ?_⟩
      intro x hx
      rcases List.mem_cons.mp hx with rfl | hx
      · exact (ih best).1.trans (not_lt.mp hyb)
      · exact (ih best).2 x hx

theorem select_best_consistent (f : QueryTree → ℝ) :
    ∀ (xs : List (QueryTree × ℝ)) (best : QueryTree × ℝ),
      best.2 = f best.1 → (∀ x ∈ xs, x.2 = f x.1) →
      (select_best xs best).2 = f (select_best xs best).1 := by
  intro xs
  induction xs with
  | nil => intro best hb _; exact hb
  | cons y ys ih =>
    intro best hb hall
    have hstep : select_best (y :: ys) best
        = select_best ys (if y.2 < best.2 then y else best) := rfl
    by_cases hyb : y.2 < best.2
    · rw [hstep, if_pos hyb]
      exact ih y (hall y (List.mem_cons_self _ _))
        (fun x hx => hall x (List.mem_cons_of_mem _ hx))
    · rw [hstep, if_neg hyb]
      exact ih best hb (fun x hx => hall x (List.mem_cons_of_mem _ hx))

/-! ## Claim C1: the heuristic enumerator -/

theorem optimize_le_each (pq : ParsedQuery) :
    ∀ p ∈ candidate_plans pq.query_tree,
      calculate_tree_cost defaultStatistics (optimize_tree pq).query_tree
        ≤ calculate_tree_cost defaultStatistics p := by
  have hsel := select_best_le
    [(generate_projection_first_plan pq.query_tree,
        calculate_tree_cost defaultStatistics (generate_projection_first_plan pq.query_tree)),
       (generate_balanced_plan pq.query_tree,
        calculate_tree_cost defaultStatistics (generate_balanced_plan pq.query_tree)),
       (generate_aggressive_combination_plan pq.query_tree,
        calculate_tree_cost defaultStatistics (generate_aggressive_combination_plan pq.query_tree)),
       (generate_conservative_plan pq.query_tree,
        calculate_tree_cost defaultStatistics (generate_conservative_plan pq.query_tree)),
       (generate_swap_optimized_plan pq.query_tree,
        calculate_tree_cost defaultStatistics (generate_swap_optimized_plan pq.query_tree))]
    (generate_selection_first_plan pq.query_tree,
        calculate_tree_cost defaultStatistics (generate_selection_first_plan pq.query_tree))
  have hinv := select_best_consistent (calculate_tree_cost defaultStatistics)
    [(generate_projection_first_plan pq.query_tree,
        calculate_tree_cost defaultStatistics (generate_projection_first_plan pq.query_tree)),
       (generate_balanced_plan pq.query_tree,
        calculate_tree_cost defaultStatistics (generate_balanced_plan pq.query_tree)),
       (generate_aggressive_combination_plan pq.query_tree,
        calculate_tree_cost defaultStatistics (generate_aggressive_combination_plan pq.query_tree)),
       (generate_conservative_plan pq.query_tree,
        calculate_tree_cost defaultStatistics (generate_conservative_plan pq.query_tree)),
       (generate_swap_optimized_plan pq.query_tree,
        calculate_tree_cost defaultStatistics (generate_swap_optimized_plan pq.query_tree))]
    (generate_selection_first_plan pq.query_tree,
        calculate_tree_cost defaultStatistics (generate_selection_first_plan pq.query_tree))
    rfl
    (by
      intro x hx
      simp only [List.mem_cons, List.not_mem_nil, or_false] at hx
      rcases hx with rfl | rfl | rfl | rfl | rfl <;> rfl)
  have heq : (optimize_tree pq).query_tree
      = (select_best
    [(generate_projection_first_plan pq.query_tree,
        calculate_tree_cost defaultStatistics (generate_projection_first_plan pq.query_tree)),
       (generate_balanced_plan pq.query_tree,
        calculate_tree_cost defaultStatistics (generate_balanced_plan pq.query_tree)),
       (generate_aggressive_combination_plan pq.query_tree,
        calculate_tree_cost defaultStatistics (generate_aggressive_combination_plan pq.query_tree)),
       (generate_conservative_plan pq.query_tree,
        calculate_tree_cost defaultStatistics (generate_conservative_plan pq.query_tree)),
       (generate_swap_optimized_plan pq.query_tree,
        calculate_tree_cost defaultStatistics (generate_swap_optimized_plan pq.query_tree))]
    (generate_selection_first_plan pq.query_tree,
        calculate_tree_cost defaultStatistics (generate_selection_first_plan pq.query_tree))).1 := rfl
  intro p hp
  simp only [candidate_plans, List.mem_cons, List.not_mem_nil, or_false] at hp
  rw [heq, ← hinv]
  rcases hp with rfl | rfl | rfl | rfl | rfl | rfl
  · exact hsel.1
  · exact hsel.2 (generate_projection_first_plan pq.query_tree,
      calculate_tree_cost defaultStatistics (generate_projection_first_plan pq.query_tree)) (by simp)
  · exact hsel.2 (generate_balanced_plan pq.query_tree,
      calculate_tree_cost defaultStatistics (generate_balanced_plan pq.query_tree)) (by simp)
  · exact hsel.2 (generate_aggressive_combination_plan pq.query_tree,
      calculate_tree_cost defaultStatistics (generate_aggressive_combination_plan pq.query_tree)) (by simp)
  · exact hsel.2 (generate_conservative_plan pq.query_tree,
      calculate_tree_cost defaultStatistics (generate_conservative_plan pq.query_tree)) (by simp)
  · exact hsel.2 (generate_swap_optimized_plan pq.query_tree,
      calculate_tree_cost defaultStatistics (generate_swap_optimized_plan pq.query_tree)) (by simp)

/-! ## Claim C1 -/

/-- C1: for every query accepted by the parser, the plan returned by the
heuristic enumerator `optimize_tree` costs no more than the input tree
under the same cost function, and whenever every candidate plan costs
strictly more than the input tree the enumerator returns the input
unchanged. -/
theorem c1_enumerator_monotone {q : String} {pq : ParsedQuery}
    (h : parse_query q = Except.ok pq) :
    calculate_tree_cost defaultStatistics (optimize_tree pq).query_tree
      ≤ calculate_tree_cost defaultStatistics pq.query_tree ∧
    ((∀ p ∈ candidate_plans pq.query_tree,
        calculate_tree_cost defaultStatistics pq.query_tree
          < calculate_tree_cost defaultStatistics p) →
      optimize_tree pq = pq) := by
  have hle : calculate_tree_cost defaultStatistics (optimize_tree pq).query_tree
      ≤ calculate_tree_cost defaultStatistics
          (generate_conservative_plan pq.query_tree) := by
    apply optimize_le_each
    simp [candidate_plans]
  have hcons := conservative_plan_cost h
  refine ⟨hcons ▸ hle, fun hall => ?_⟩
  exact absurd (hcons ▸ hall (generate_conservative_plan pq.query_tree)
    (by simp [candidate_plans])) (lt_irrefl _)

/-- Closed witness for C1 at the query `SELECT a FROM t`. -/
theorem c1_enumerator_monotone_witness :
    calculate_tree_cost defaultStatistics
        (optimize_tree ⟨"SELECT a FROM t",
          QueryTree.node "PROJECT" (Val.strList ["a"])
            [QueryTree.node "TABLE" (Val.str "t") [] none] none⟩).query_tree
      ≤ calculate_tree_cost defaultStatistics
          (QueryTree.node "PROJECT" (Val.strList ["a"])
            [QueryTree.node "TABLE" (Val.str "t") [] none] none) :=
  (c1_enumerator_monotone (q := "SELECT a FROM t") (by rfl)).1

/-! ## Claim C2 -/

/-- C2: refuted — `push_down_projection` does not preserve the multiset of
TABLE values. On `JOIN(TABLE a, TABLE b)` the second child loop reuses the
stale index of the first loop, so the last child slot is overwritten with a
transform of the second-to-last child: the output is `JOIN(TABLE a, TABLE a)`,
which loses relation `b` and duplicates relation `a`. -/
theorem c2_push_down_projection_table_multiset_violated :
    tableVals (QueryTree.node "JOIN" .vnone
        [QueryTree.node "TABLE" (.str "a") [] none,
         QueryTree.node "TABLE" (.str "b") [] none] none)
      = [.str "a", .str "b"] ∧
    tableVals (push_down_projection (QueryTree.node "JOIN" .vnone
        [QueryTree.node "TABLE" (.str "a") [] none,
         QueryTree.node "TABLE" (.str "b") [] none] none))
      = [.str "a", .str "a"] ∧
    ¬ ((tableVals (push_down_projection (QueryTree.node "JOIN" .vnone
          [QueryTree.node "TABLE" (.str "a") [] none,
           QueryTree.node "TABLE" (.str "b") [] none] none)) : Multiset Val)
        = (tableVals (QueryTree.node "JOIN" .vnone
            [QueryTree.node "TABLE" (.str "a") [] none,
             QueryTree.node "TABLE" (.str "b") [] none] none) : Multiset Val))
    := by decide

/-! ## Claim C3 -/

/-- C3: refuted — the leaf selectivity table diverges from the spec. The
source tests `'=' in condition` first, so `<=`, `>=` and `!=` (which all
contain `'='`) return 0.1 instead of the specified 0.4 / 0.4 / 0.9; the
later `>=`/`<=` and `<>`/`!=` branches are unreachable except that `<>`
(which has no `'='`) falls to the `>`/`<` branch and returns 0.3 instead of
0.9; there is no `LIKE` branch at all, so a LIKE leaf returns the default
0.5 instead of 0.2. -/
theorem c3_condition_selectivity_eval :
    estimate_condition_selectivity (.leaf "emp.age = 30") = 1/10 ∧
    estimate_condition_selectivity (.leaf "emp.age <= 30") = 1/10 ∧
    estimate_condition_selectivity (.leaf "emp.age >= 30") = 1/10 ∧
    estimate_condition_selectivity (.leaf "emp.age != 30") = 1/10 ∧
    estimate_condition_selectivity (.leaf "emp.age <> 30") = 3/10 ∧
    estimate_condition_selectivity (.leaf "name LIKE 'A%'") = 1/2 ∧
    estimate_condition_selectivity (.leaf "emp.age < 30") = 3/10 ∧
    estimate_condition_selectivity (.leaf "emp.age > 30") = 3/10 :=
  ⟨rfl, rfl, rfl, rfl, rfl, rfl, rfl, rfl⟩

/-! ## Claim C4 -/

/-- C4: refuted — `combine_cartesian_with_selection` is an unimplemented
stub (`# TODO` in the source) that returns its input unchanged, so a
SELECT over a CARTESIAN-PRODUCT is never rewritten into a JOIN: the root
of the output is still a SELECT node, not a JOIN. -/
theorem c4_cartesian_selection_stub :
    (∀ t : QueryTree, combine_cartesian_with_selection t = t) ∧
    (combine_cartesian_with_selection
        (QueryTree.node "SELECT" (.leaf "a.x = b.y")
          [QueryTree.node "CARTESIAN-PRODUCT" .vnone
            [QueryTree.node "TABLE" (.str "a") [] none,
             QueryTree.node "TABLE" (.str "b") [] none] none] none)).type
      = "SELECT" :=
  ⟨fun _ => rfl, rfl⟩

/-! ## Claim C5 -/

/-- C5 counterexample: on σ[(a=1)∧(b=2)] over the child σ[(c=3)∧(d=4)](TABLE t),
the rule does NOT leave the original child under the new chain: the rule is
recursive (and, after a decomposition, re-applies itself to its own output),
so the child's conjunction is decomposed too and the output is a chain of
four one-atom SELECT nodes, not the claimed two SELECT nodes over the
untouched child. -/
theorem c5_chain_counterexample :
    push_down_selection
        (QueryTree.node "SELECT" (.condOp "AND" (.leaf "a=1") (.leaf "b=2"))
          [QueryTree.node "SELECT" (.condOp "AND" (.leaf "c=3") (.leaf "d=4"))
            [QueryTree.node "TABLE" (.str "t") [] none] none] none)
      ≠ QueryTree.node "SELECT" (.leaf "a=1")
          [QueryTree.node "SELECT" (.leaf "b=2")
            [QueryTree.node "SELECT" (.condOp "AND" (.leaf "c=3") (.leaf "d=4"))
              [QueryTree.node "TABLE" (.str "t") [] none] none] none] none := by
  rw [push_select_chain (by decide), push_select_chain (by decide),
    push_nonselect (by decide)]
  decide

/-- C5 (amended): on a SELECT whose condition is an AND-tree of k ≥ 2 atoms,
`push_down_selection` returns the right-leaning chain of the k extracted
atoms, in in-order, built over the RECURSIVELY PROCESSED first child (and
any further children of the SELECT node are dropped). -/
theorem c5_decomposition_chain {v : Val}
    (hk : 2 ≤ (extract_and_conditions v).length)
    (c : QueryTree) (cr : List QueryTree) (a : Option String) :
    push_down_selection (.node "SELECT" v (c :: cr) a)
      = buildChain (extract_and_conditions v) (push_down_selection c) :=
  push_select_chain hk c cr a

/-- Closed witness for C5 at the spec's S3 instance
σ[((a=1)∧(b=2))∧(c=3)](TABLE T): the output is the three-atom chain. -/
theorem c5_decomposition_chain_witness :
    2 ≤ (extract_and_conditions (.condOp "AND"
          (.condOp "AND" (.leaf "a=1") (.leaf "b=2")) (.leaf "c=3"))).length ∧
    push_down_selection
        (QueryTree.node "SELECT"
          (.condOp "AND" (.condOp "AND" (.leaf "a=1") (.leaf "b=2"))
            (.leaf "c=3"))
          [QueryTree.node "TABLE" (.str "T") [] none] none)
      = buildChain [.leaf "a=1", .leaf "b=2", .leaf "c=3"]
          (push_down_selection (QueryTree.node "TABLE" (.str "T") [] none)) :=
  ⟨by decide, c5_decomposition_chain (by decide)
    (QueryTree.node "TABLE" (.str "T") [] none) [] none⟩

/-! ## Claim C6 -/

/-- C6 counterexample: `combine_selections` is not idempotent. On the
three-SELECT chain σ[a](σ[b](σ[c](TABLE t))) the rule merges only the top
pair and returns without recursing, giving σ[a∧b](σ[c](TABLE t)); a second
application merges again, giving σ[(a∧b)∧c](TABLE t) ≠ first output. -/
theorem c6_combine_not_idempotent :
    combine_selections (combine_selections
        (QueryTree.node "SELECT" (.leaf "a") [QueryTree.node "SELECT" (.leaf "b")
          [QueryTree.node "SELECT" (.leaf "c")
            [QueryTree.node "TABLE" (.str "t") [] none] none] none] none))
      ≠ combine_selections
        (QueryTree.node "SELECT" (.leaf "a") [QueryTree.node "SELECT" (.leaf "b")
          [QueryTree.node "SELECT" (.leaf "c")
            [QueryTree.node "TABLE" (.str "t") [] none] none] none] none) := by
  decide

/-- C6 (amended): `combine_selections` is a no-op on (hence idempotent at)
every tree with no SELECT node whose first child is a SELECT; in
particular a second application changes nothing whenever the first
application's output has no such adjacent pair left — which fails for
chains of three or more consecutive SELECT nodes, where the first
application merges only the top pair. -/
theorem c6_combine_idempotent_on_fixed (t : QueryTree)
    (h : noSelSel (combine_selections t) = true) :
    combine_selections (combine_selections t) = combine_selections t :=
  combine_fix _ h

/-- Closed witness for C6 at the two-SELECT chain σ[a](σ[b](TABLE t)). -/
theorem c6_combine_idempotent_on_fixed_witness :
    noSelSel (combine_selections
        (QueryTree.node "SELECT" (.leaf "a") [QueryTree.node "SELECT" (.leaf "b")
          [QueryTree.node "TABLE" (.str "t") [] none] none] none)) = true ∧
    combine_selections (combine_selections
        (QueryTree.node "SELECT" (.leaf "a") [QueryTree.node "SELECT" (.leaf "b")
          [QueryTree.node "TABLE" (.str "t") [] none] none] none))
      = combine_selections
        (QueryTree.node "SELECT" (.leaf "a") [QueryTree.node "SELECT" (.leaf "b")
          [QueryTree.node "TABLE" (.str "t") [] none] none] none) :=
  ⟨by decide, c6_combine_idempotent_on_fixed _ (by decide)⟩

/-! ## Claim C7 -/

/-- C7 counterexample: the R3∘R1 round-trip fails when the child under
σ[a ∧ b] contains further conjunctive SELECT nodes: on
σ[a∧b](σ[c∧d](TABLE t)) rule R1 decomposes both conjunctions into a
four-SELECT chain, and R3 then merges only the top pair, yielding
σ[a∧b](σ[c](σ[d](TABLE t))), not the original tree. -/
theorem c7_round_trip_counterexample :
    combine_selections (push_down_selection
        (QueryTree.node "SELECT" (.condOp "AND" (.leaf "a") (.leaf "b"))
          [QueryTree.node "SELECT" (.condOp "AND" (.leaf "c") (.leaf "d"))
            [QueryTree.node "TABLE" (.str "t") [] none] none] none))
      ≠ QueryTree.node "SELECT" (.condOp "AND" (.leaf "a") (.leaf "b"))
          [QueryTree.node "SELECT" (.condOp "AND" (.leaf "c") (.leaf "d"))
            [QueryTree.node "TABLE" (.str "t") [] none] none] none := by
  rw [push_select_chain (by decide), push_select_chain (by decide),
    push_nonselect (by decide)]
  decide

/-- C7 (amended): the round-trip σ[a ∧ b](T) → R1 → R3 → σ[a ∧ b](T) holds
when a and b are atoms (their AND-extraction is themselves) and T is a
fixed point of R1; then R1 yields σ[a](σ[b](T)) and R3 merges it back to
the original node. -/
theorem c7_round_trip {va vb : Val} {T : QueryTree}
    (ha : extract_and_conditions va = [va])
    (hb : extract_and_conditions vb = [vb])
    (hT : push_down_selection T = T) :
    combine_selections (push_down_selection
        (QueryTree.node "SELECT" (.condOp "AND" va vb) [T] none))
      = QueryTree.node "SELECT" (.condOp "AND" va vb) [T] none := by
  have hext : extract_and_conditions (.condOp "AND" va vb) = [va, vb] := by
    simp [extract_and_conditions, ha, hb]
  rw [push_select_chain (by rw [hext]; exact le_refl 2) T [] none, hT, hext]
  rfl

/-- Closed witness for C7 at σ[(a=1) ∧ (b=2)](TABLE t). -/
theorem c7_round_trip_witness :
    extract_and_conditions (.leaf "a=1") = [.leaf "a=1"] ∧
    extract_and_conditions (.leaf "b=2") = [.leaf "b=2"] ∧
    push_down_selection (QueryTree.node "TABLE" (.str "t") [] none)
      = QueryTree.node "TABLE" (.str "t") [] none ∧
    combine_selections (push_down_selection
        (QueryTree.node "SELECT" (.condOp "AND" (.leaf "a=1") (.leaf "b=2"))
          [QueryTree.node "TABLE" (.str "t") [] none] none))
      = QueryTree.node "SELECT" (.condOp "AND" (.leaf "a=1") (.leaf "b=2"))
          [QueryTree.node "TABLE" (.str "t") [] none] none :=
  ⟨rfl, rfl, push_nonselect (by decide) (.str "t") [] none,
    c7_round_trip rfl rfl (push_nonselect (by decide) (.str "t") [] none)⟩

/-! ## Claim C8 -/

/-- C8: `parse_query` fails with the `Invalid query syntax` error whenever
the token stream lacks SELECT or FROM (so the engine never returns a
ParsedQuery for such strings), and the engine's `parse_query` also fails,
with a `Query validation failed` error, whenever the parsed tree fails
validation. -/
theorem c8_parse_query_errors (q : String) :
    (("SELECT" ∉ tokenize q ∨ "FROM" ∉ tokenize q) →
      engine_parse_query q = .error "Invalid query syntax") ∧
    (∀ pq : ParsedQuery, parse_query q = .ok pq →
      (validate_parsed_query pq).1 = false →
      engine_parse_query q = .error ("Query validation failed: "
        ++ pyIntercalate "; " (validate_parsed_query pq).2)) := by
  constructor
  · intro h
    have hp : parse_query q = .error "Invalid query syntax" := by
      unfold parse_query
      simp only []
      rw [if_pos h]
    simp [engine_parse_query, hp]
  · intro pq hok hval
    simp [engine_parse_query, hok, hval]

/-- Closed witness for C8 at the string `foo bar`, whose tokens contain
neither SELECT nor FROM. -/
theorem c8_parse_query_errors_witness :
    ("SELECT" ∉ tokenize "foo bar" ∨ "FROM" ∉ tokenize "foo bar") ∧
    engine_parse_query "foo bar" = .error "Invalid query syntax" :=
  ⟨Or.inl (by decide),
    (c8_parse_query_errors "foo bar").1 (Or.inl (by decide))⟩

/-! ## Claim C9 -/

/-- C9: refuted — alias references are not fully resolved in the parsed
tree. In the aliased single-table query the projection list still holds
the alias-prefixed `emp.name` (the rewrite loop over `alias_map` runs
before any alias has been recorded), even though the WHERE leaf is
resolved to `employees.salary`. In the JOIN query the alias map is never
populated at all (the JOIN branch parses aliases but does not store them),
so the projection, the ON condition and the WHERE condition all keep their
alias prefixes `e.` and `d.`. -/
theorem c9_alias_resolution_eval :
    parse_query "SELECT emp.name FROM employees emp WHERE emp.salary > 50000"
      = .ok ⟨"SELECT emp.name FROM employees emp WHERE emp.salary > 50000",
          QueryTree.node "PROJECT" (.strList ["emp.name"])
            [QueryTree.node "SELECT" (.leaf "employees.salary > 50000")
              [QueryTree.node "TABLE" (.str "employees") [] none] none]
            none⟩ ∧
    parse_query
        "SELECT e.name FROM employees e JOIN departments d ON e.dept_id = d.id WHERE d.name = 'Sales'"
      = .ok ⟨"SELECT e.name FROM employees e JOIN departments d ON e.dept_id = d.id WHERE d.name = 'Sales'",
          QueryTree.node "PROJECT" (.strList ["e.name"])
            [QueryTree.node "SELECT" (.leaf "d.name = 'Sales'")
              [QueryTree.node "JOIN" (.leaf "e.dept_id = d.id")
                [QueryTree.node "TABLE" (.str "employees") [] none,
                 QueryTree.node "TABLE" (.str "departments") [] none] none]
              none]
            none⟩ :=
  ⟨rfl, rfl⟩

/-! ## Claim C10: helper lemmas on chromosome operations -/

theorem removeDupsGo_mem : ∀ (l seen : List Nat) (x : Nat),
    x ∈ removeDupsGo seen l → x ∈ l := by
  intro l
  induction l with
  | nil => intro seen x hx; simp [removeDupsGo] at hx
  | cons y ys ih =>
    intro seen x hx
    simp only [removeDupsGo] at hx
    by_cases hy : y ∈ seen
    · rw [if_pos hy] at hx
      exact List.mem_cons_of_mem _ (ih _ _ hx)
    · rw [if_neg hy] at hx
      rcases List.mem_cons.mp hx with rfl | hx'
      · exact List.mem_cons_self _ _
      · exact List.mem_cons_of_mem _ (ih _ _ hx')

theorem removeDupsGo_not_seen : ∀ (l seen : List Nat) (x : Nat),
    x ∈ removeDupsGo seen l → x ∉ seen := by
  intro l
  induction l with
  | nil => intro seen x hx; simp [removeDupsGo] at hx
  | cons y ys ih =>
    intro seen x hx
    simp only [removeDupsGo] at hx
    by_cases hy : y ∈ seen
    · rw [if_pos hy] at hx
      exact ih _ _ hx
    · rw [if_neg hy] at hx
      rcases List.mem_cons.mp hx with rfl | hx'
      · exact hy
      · intro hseen
        exact ih _ _ hx' (List.mem_cons_of_mem _ hseen)

theorem removeDupsGo_nodup : ∀ (l seen : List Nat),
    (removeDupsGo seen l).Nodup := by
  intro l
  induction l with
  | nil => intro seen; simp [removeDupsGo]
  | cons y ys ih =>
    intro seen
    simp only [removeDupsGo]
    by_cases hy : y ∈ seen
    · rw [if_pos hy]; exact ih _
    · rw [if_neg hy]
      refine List.nodup_cons.mpr ⟨?_, ih _⟩
      intro hmem
      exact removeDupsGo_not_seen _ _ _ hmem (List.mem_cons_self _ _)

theorem remove_duplicates_nodup (l : List Nat) :
    (remove_duplicates_preserve_order l).Nodup :=
  removeDupsGo_nodup l []

theorem remove_duplicates_subset (l : List Nat) (x : Nat)
    (hx : x ∈ remove_duplicates_preserve_order l) : x ∈ l :=
  removeDupsGo_mem l [] x hx

theorem remove_duplicates_ne_nil {l : List Nat} (h : l ≠ []) :
    remove_duplicates_preserve_order l ≠ [] := by
  cases l with
  | nil => exact absurd rfl h
  | cons x xs =>
    simp [remove_duplicates_preserve_order, removeDupsGo]

/-- Inserting at a position within range is a permutation of consing. -/
theorem insertIdx_perm_cons (x : Nat) : ∀ (n : Nat) (l : List Nat),
    n ≤ l.length → (l.insertIdx n x).Perm (x :: l) := by
  intro n
  induction n with
  | zero => intro l _; simp [List.insertIdx]
  | succ m ih =>
    intro l hl
    cases l with
    | nil => simp at hl
    | cons a as =>
      simp only [List.insertIdx_succ_cons]
      exact ((ih as (by simpa using hl)).cons a).trans (List.Perm.swap x a as)

/-- Writing `x` at a valid index and consing the displaced value back is a
permutation of consing `x`. -/
theorem getD_cons_set_perm (x : Nat) : ∀ (xs : List Nat) (k : Nat),
    k < xs.length → ((xs.getD k 0) :: xs.set k x).Perm (x :: xs) := by
  intro xs
  induction xs with
  | nil => intro k hk; simp at hk
  | cons y ys ih =>
    intro k hk
    cases k with
    | zero => exact List.Perm.swap x y ys
    | succ m =>
      have hm : m < ys.length := by simpa using hk
      show ((ys.getD m 0) :: y :: ys.set m x).Perm (x :: y :: ys)
      exact ((List.Perm.swap y (ys.getD m 0) (ys.set m x)).trans
        ((ih m hm).cons y)).trans (List.Perm.swap x y ys)

/-- The two-index swap performed by mutation type 0 is a permutation. -/
theorem set_swap_perm : ∀ (s : List Nat) (i j : Nat),
    i < s.length → j < s.length →
    ((s.set i (s.getD j 0)).set j (s.getD i 0)).Perm s := by
  intro s
  induction s with
  | nil => intro i j hi _; simp at hi
  | cons x xs ih =>
    intro i j hi hj
    cases i with
    | zero =>
      cases j with
      | zero => exact List.Perm.refl _
      | succ k =>
        have hk : k < xs.length := by simpa using hj
        show ((xs.getD k 0) :: xs.set k x).Perm (x :: xs)
        exact getD_cons_set_perm x xs k hk
    | succ m =>
      cases j with
      | zero =>
        have hm : m < xs.length := by simpa using hi
        show ((xs.getD m 0) :: xs.set m x).Perm (x :: xs)
        exact getD_cons_set_perm x xs m hm
      | succ k =>
        have hm : m < xs.length := by simpa using hi
        have hk : k < xs.length := by simpa using hj
        show (x :: (xs.set m (xs.getD k 0)).set k (xs.getD m 0)).Perm (x :: xs)
        exact (ih m k hm hk).cons x

/-- A duplicate-free list of naturals below 8 has at most 8 elements. -/
theorem nodup_lt8_length_le (l : List Nat) (hnd : l.Nodup)
    (hlt : ∀ x ∈ l, x < 8) : l.length ≤ 8 := by
  have h1 : l.toFinset ⊆ Finset.range 8 := by
    intro x hx
    simp only [List.mem_toFinset] at hx
    exact Finset.mem_range.mpr (hlt x hx)
  have h2 := Finset.card_le_card h1
  simpa [List.toFinset_card_of_nodup hnd, Finset.card_range] using h2

/-- Both crossover children keep the chromosome invariant. -/
theorem crossover_inv {cp : Nat} {s1 s2 : List Nat}
    (h1 : s1.Nodup ∧ 1 ≤ s1.length ∧ ∀ x ∈ s1, x < 8)
    (h2 : s2.Nodup ∧ 1 ≤ s2.length ∧ ∀ x ∈ s2, x < 8) :
    ((crossover cp s1 s2).1.Nodup ∧ 1 ≤ (crossover cp s1 s2).1.length ∧
      ∀ x ∈ (crossover cp s1 s2).1, x < 8) ∧
    ((crossover cp s1 s2).2.Nodup ∧ 1 ≤ (crossover cp s1 s2).2.length ∧
      ∀ x ∈ (crossover cp s1 s2).2, x < 8) := by
  unfold crossover
  split
  · exact ⟨h1, h2⟩
  · split
    · exact ⟨h1, h2⟩
    · rename_i hne hmin
      constructor
      · refine ⟨remove_duplicates_nodup _, ?_, ?_⟩
        · refine List.length_pos.mpr (remove_duplicates_ne_nil ?_)
          refine List.length_pos.mp ?_
          rw [List.length_append, List.length_take, List.length_drop]
          omega
        · intro x hx
          rcases List.mem_append.mp (remove_duplicates_subset _ x hx)
            with hx1 | hx2
          · exact h1.2.2 x (List.mem_of_mem_take hx1)
          · exact h2.2.2 x (List.mem_of_mem_drop hx2)
      · refine ⟨remove_duplicates_nodup _, ?_, ?_⟩
        · refine List.length_pos.mpr (remove_duplicates_ne_nil ?_)
          refine List.length_pos.mp ?_
          rw [List.length_append, List.length_take, List.length_drop]
          omega
        · intro x hx
          rcases List.mem_append.mp (remove_duplicates_subset _ x hx)
            with hx1 | hx2
          · exact h2.2.2 x (List.mem_of_mem_take hx1)
          · exact h1.2.2 x (List.mem_of_mem_drop hx2)

/-- Mutation keeps the chromosome invariant. -/
theorem mutate_inv {r0 mtype i j d cIdx pos : Nat} {s : List Nat}
    (hs : s.Nodup ∧ 1 ≤ s.length ∧ ∀ x ∈ s, x < 8)
    (hr0 : r0 < 8)
    (hij : 2 ≤ s.length → i < s.length ∧ j < s.length ∧ i ≠ j)
    (hd : 1 < s.length → d < s.length)
    (hc : cIdx < ((List.range 8).filter (fun r => decide (r ∉ s))).length
      ∨ (List.range 8).filter (fun r => decide (r ∉ s)) = [])
    (hpos : pos ≤ s.length) :
    (mutate r0 mtype i j d cIdx pos s).Nodup ∧
      1 ≤ (mutate r0 mtype i j d cIdx pos s).length ∧
      ∀ x ∈ mutate r0 mtype i j d cIdx pos s, x < 8 := by
  unfold mutate
  split
  · refine ⟨by simp, by simp, ?_⟩
    intro x hx
    rw [List.mem_singleton] at hx
    subst hx
    exact hr0
  · split
    · rename_i h0
      obtain ⟨hi, hj, _⟩ := hij h0.2
      have hperm := set_swap_perm s i j hi hj
      exact ⟨hperm.nodup_iff.mpr hs.1,
        by rw [hperm.length_eq]; exact hs.2.1,
        fun x hx => hs.2.2 x (hperm.mem_iff.mp hx)⟩
    · split
      · rename_i h1e
        have hdd := hd h1e.2
        have hlen : (s.eraseIdx d).length = s.length - 1 := by
          rw [List.length_eraseIdx]
          simp [hdd]
        refine ⟨hs.1.sublist (List.eraseIdx_sublist s d), ?_,
          fun x hx => hs.2.2 x ((List.eraseIdx_sublist s d).mem hx)⟩
        rw [hlen]
        have := h1e.2
        omega
      · split
        · split
          · exact hs
          · rename_i h2e _ a arest hfil
            have hcne : cIdx
                < ((List.range 8).filter (fun r => decide (r ∉ s))).length := by
              rcases hc with h | h
              · exact h
              · rw [h] at hfil
                cases hfil
            have hlen' : cIdx < (a :: arest).length := by
              rw [← hfil]
              exact hcne
            have hv : (a :: arest).getD cIdx 0 ∈ a :: arest := by
              rw [List.getD_eq_getElem _ _ hlen']
              exact List.getElem_mem _
            have hv' : (a :: arest).getD cIdx 0
                ∈ (List.range 8).filter (fun r => decide (r ∉ s)) := by
              rw [hfil]
              exact hv
            have hmf := List.mem_filter.mp hv'
            have hvnot : (a :: arest).getD cIdx 0 ∉ s := by
              simpa using hmf.2
            have hvlt : (a :: arest).getD cIdx 0 < 8 :=
              List.mem_range.mp hmf.1
            have hperm := insertIdx_perm_cons ((a :: arest).getD cIdx 0) pos s hpos
            refine ⟨hperm.nodup_iff.mpr (List.nodup_cons.mpr ⟨hvnot, hs.1⟩),
              ?_, ?_⟩
            · rw [hperm.length_eq]
              simp
            · intro x hx
              rcases List.mem_cons.mp (hperm.mem_iff.mp hx) with rfl | hxs
              · exact hvlt
              · exact hs.2.2 x hxs
        · exact hs

/-! ## Claim C10 -/

/-- C10: every chromosome reachable in the genetic search — by random
initialization, either crossover child, or mutation — has no duplicate
rule identifiers and length between 1 and 8. -/
theorem c10_ga_chromosome_invariant (s : List Nat) (h : GAChrom s) :
    s.Nodup ∧ 1 ≤ s.length ∧ s.length ≤ 8 := by
  have key : s.Nodup ∧ 1 ≤ s.length ∧ ∀ x ∈ s, x < 8 := by
    induction h with
    | init s hnd hsub h4 h8 =>
      refine ⟨hnd, le_trans (by omega) h4, fun x hx => ?_⟩
      have := hsub x hx
      simpa [all_rules] using this
    | crossL cp s1 s2 h1 h2 hcp1 ih1 ih2 => exact (crossover_inv ih1 ih2).1
    | crossR cp s1 s2 h1 h2 hcp1 ih1 ih2 => exact (crossover_inv ih1 ih2).2
    | mutStep r0 mtype i j d cIdx pos s h hr0 hm hij hd hc hpos ih =>
      exact mutate_inv ih hr0 hij hd hc hpos
  exact ⟨key.1, key.2.1, nodup_lt8_length_le s key.1 key.2.2⟩

/-- Closed witness for C10 at the initial chromosome `[0, 1, 2, 3]`. -/
theorem c10_ga_chromosome_invariant_witness :
    GAChrom [0, 1, 2, 3] ∧
    ([0, 1, 2, 3] : List Nat).Nodup ∧
    1 ≤ ([0, 1, 2, 3] : List Nat).length ∧
    ([0, 1, 2, 3] : List Nat).length ≤ 8 :=
  have hg : GAChrom [0, 1, 2, 3] :=
    GAChrom.init _ (by decide) (by decide) (by decide) (by decide)
  ⟨hg, c10_ga_chromosome_invariant _ hg⟩
